import Mathlib

/-!
Chat broker (labs/lab02/backend/chatcore/chatcore.go).

A shallow embedding of the message broker: the data model, the registry
operations, `SendMessage`, and the dispatch loop `Run`, followed by the
properties of routing, sending, registration, ordering and shutdown.

Modelling conventions.

* A Go channel is a reference.  Mailbox channels are named by a number and live
  in a heap `Chans`; the registry maps a user id to a channel name, so two ids
  may name the same mailbox, as in Go.  Mailboxes are open channels: the broker
  never closes one, and closing is left out.
* A mailbox records every message sent on it (`received`, oldest first) and how
  many further sends complete without blocking (`room`).  A send on a mailbox
  without room blocks; a consumer that receives makes room.
* A `select` with several ready cases takes one of them at random, and the
  order of a map iteration is not fixed; both choices are explicit arguments.
* `ctx.Done()` is a flag that, once set, stays set.
* Goroutines interleave at the shared operations.  A run is a sequence of
  atomic steps; `SendMessage` is split at its two `select`s and `Run` at the
  receive, at the reading of the registry and at each blocked mailbox send.
* `Timestamp` is an `int64` that the broker only copies.
-/

namespace Chatcore

/-! ## Data model -/

/-- The struct `Message` (chatcore.go, lines 10-16). -/
structure Message where
  Sender : String
  Recipient : String
  Content : String
  Broadcast : Bool
  Timestamp : Int
deriving DecidableEq, Repr

/-- The state of one `chan Message` handed to `RegisterUser`: the messages sent
on it so far, oldest first, and the number of sends it accepts before the next
one blocks (free buffer slots, or receivers parked on the channel). -/
structure Mailbox where
  received : List Message
  room : Nat
deriving DecidableEq, Repr

/-- The mailbox channels of the program, by channel name. -/
abbrev Chans := Nat → Mailbox

/-- The struct `Broker` (lines 19-25): `ctxDone` says whether `ctx.Done()` is
closed, `input` is the buffer of the input channel, `users` holds the entries of
the map (one per key), `done` says whether the channel `done` is closed.  The
mutex is not a field: every operation below is one atomic step. -/
structure Broker where
  ctxDone : Bool
  input : List Message
  users : List (String × Nat)
  done : Bool
deriving DecidableEq, Repr

/-- Capacity of the input channel: `make(chan Message, 100)` (line 31). -/
def inputCap : Nat := 100

/-- The function `NewBroker` (lines 28-35); the argument says whether the
context handed over is already cancelled. -/
def NewBroker (ctxDone : Bool) : Broker :=
  { ctxDone := ctxDone, input := [], users := [], done := false }

/-! ## The registry -/

/-- Map read `b.users[id]` with the comma-ok form. -/
def mapGet (users : List (String × Nat)) (id : String) : Option Nat :=
  users.lookup id

/-- Map removal `delete(users, id)`. -/
def mapDelete (users : List (String × Nat)) (id : String) : List (String × Nat) :=
  users.filter (fun e => e.1 != id)

/-- Map write `users[id] = c`: the entry of `id`, if any, is replaced. -/
def mapSet (users : List (String × Nat)) (id : String) (c : Nat) : List (String × Nat) :=
  (id, c) :: mapDelete users id

/-- The method `RegisterUser` (lines 82-86). -/
def RegisterUser (b : Broker) (userID : String) (recv : Nat) : Broker :=
  { b with users := mapSet b.users userID recv }

/-- The method `UnregisterUser` (lines 89-93). -/
def UnregisterUser (b : Broker) (userID : String) : Broker :=
  { b with users := mapDelete b.users userID }

/-- A registry is a map when no key occurs twice. -/
def UniqueKeys (users : List (String × Nat)) : Prop :=
  (users.map Prod.fst).Nodup

instance (users : List (String × Nat)) : Decidable (UniqueKeys users) := by
  unfold UniqueKeys; infer_instance

/-- A call of one of the two registry methods. -/
inductive RegOp where
  | register (userID : String) (recv : Nat)
  | unregister (userID : String)
deriving DecidableEq, Repr

/-- The id a registry call is about. -/
def RegOp.userID : RegOp → String
  | .register userID _ => userID
  | .unregister userID => userID

/-- The effect of one registry call. -/
def applyOp (b : Broker) : RegOp → Broker
  | .register userID recv => RegisterUser b userID recv
  | .unregister userID => UnregisterUser b userID

/-- The effect of a sequence of registry calls, the mutex making each of them
atomic. -/
def applyOps (b : Broker) (ops : List RegOp) : Broker :=
  ops.foldl applyOp b

/-- The last operation of the sequence that is about `id`, if there is one. -/
def lastOpOn (id : String) (ops : List RegOp) : Option RegOp :=
  (ops.filter (fun op => op.userID == id)).getLast?

/-! ## Mailbox sends and routing -/

/-- The statement `ch <- msg` on mailbox `c`: `none` when the send blocks. -/
def chanSend (h : Chans) (c : Nat) (msg : Message) : Option Chans :=
  if 0 < (h c).room then
    some (Function.update h c { received := (h c).received ++ [msg], room := (h c).room - 1 })
  else
    none

/-- The sends of one iteration, in order: the heap reached and the channels
still to be served.  The second component is empty when every send completed;
otherwise its head is the mailbox on which the loop is blocked. -/
def deliver (msg : Message) : List Nat → Chans → Chans × List Nat
  | [], h => (h, [])
  | c :: rest, h =>
    match chanSend h c msg with
    | some h1 => deliver msg rest h1
    | none => (h, c :: rest)

/-- The channels visited by `for _, ch := range b.users` (line 47).  Go leaves
the order of a map iteration open: the channels are visited in the order
`order` when that is a rearrangement of the channels of the entries, and in the
order of the list otherwise. -/
def rangeUsers (order : List Nat) (users : List (String × Nat)) : List Nat :=
  if order.isPerm (users.map Prod.snd) then order else users.map Prod.snd

/-- The channels `Run` sends `msg` on (lines 45-58), in order: every entry of
the map for a broadcast, otherwise the entry of `msg.Recipient` if there is
one. -/
def targets (order : List Nat) (users : List (String × Nat)) (msg : Message) : List Nat :=
  if msg.Broadcast then rangeUsers order users else (mapGet users msg.Recipient).toList

/-! ## SendMessage -/

/-- A Go `error`: `nil`, or the value of `errors.New text`. -/
inductive GoError where
  | nil
  | new (text : String)
deriving DecidableEq, Repr

/-- What one call of `SendMessage` does not control: whether the context is
cancelled after the first `select` and before the second one fires, and which
case the second `select` takes when both of its cases are ready (`true`: the
send). -/
structure SendSched where
  cancelMidCall : Bool
  takeSend : Bool
deriving DecidableEq, Repr

/-- How a call of `SendMessage` ends: it returns an error value and leaves the
broker in some state, or it stays blocked in the second `select` because
neither case is ready. -/
inductive SendOutcome where
  | returned (err : GoError) (b : Broker)
  | blocked
deriving DecidableEq, Repr

/-- The second `select` of `SendMessage` (lines 73-78), fired in state `b`.  Its
cases are `b.input <- msg`, ready when the buffer has a free slot, and
`<-b.ctx.Done()`; when both are ready `takeSend` says whether the send is
taken. -/
def sendSelect (takeSend : Bool) (b : Broker) (msg : Message) : SendOutcome :=
  match decide (b.input.length < inputCap), b.ctxDone with
  | true, false => .returned .nil { b with input := b.input ++ [msg] }
  | false, true => .returned (.new "broker shut down") b
  | true, true =>
    if takeSend then .returned .nil { b with input := b.input ++ [msg] }
    else .returned (.new "broker shut down") b
  | false, false => .blocked

/-- The method `SendMessage` (lines 64-79), called in state `b` and executed
without another goroutine touching the queue.  The first `select` (lines 66-70)
has a default case, so it returns the error exactly when `ctx.Done()` is
closed; otherwise the second `select` fires, the context being cancelled in
between when `sc.cancelMidCall` says so. -/
def SendMessage (sc : SendSched) (b : Broker) (msg : Message) : SendOutcome :=
  if b.ctxDone then
    .returned (.new "broker shut down") b
  else
    sendSelect sc.takeSend { b with ctxDone := sc.cancelMidCall } msg

/-! ## The dispatch loop -/

/-- Where the goroutine that executes `Run` stands: at the `select` of line 40,
at line 45 with a message taken from the queue and the registry not yet read,
parked in a mailbox send of lines 48 or 56 with the channels still to be served
(`locked` says whether the read lock is held, which is so for a broadcast),
after the `return` of line 43, or stopped by the panic of closing a closed
channel. -/
inductive RunPc where
  | selecting
  | routing (msg : Message)
  | sending (msg : Message) (rest : List Nat) (locked : Bool)
  | returned
  | panicked
deriving DecidableEq, Repr

/-- The broker together with the mailboxes, the dispatch goroutine and the calls
of `SendMessage` that are past their first `select` and have not returned.  The
last four fields are history variables that the program does not hold: the messages
for which `SendMessage` returned nil, in order; the number of messages `Run`
has taken from the input channel; for every mailbox the positions, in
`accepted`, of the messages sent on it, in order of sending; and the number of
executions of `close(b.done)`. -/
structure Sys where
  b : Broker
  h : Chans
  pc : RunPc
  waiting : List Message
  accepted : List Message
  taken : Nat
  log : Nat → List Nat
  closes : Nat

/-- A new broker, `Run` about to start, and mailboxes created with the given
capacities. -/
def Sys.init (ctxDone : Bool) (caps : Nat → Nat) : Sys :=
  { b := NewBroker ctxDone
    h := fun c => { received := [], room := caps c }
    pc := .selecting
    waiting := []
    accepted := []
    taken := 0
    log := fun _ => []
    closes := 0 }

/-- History of the sends of one iteration: position `i` is appended to the log
of every channel served. -/
def logSends (i : Nat) : List Nat → (Nat → List Nat) → (Nat → List Nat)
  | [], lg => lg
  | c :: cs, lg => logSends i cs (Function.update lg c (lg c ++ [i]))

/-- The mailbox sends of the current message (lines 47-49 or line 56), started
or resumed with `ts` still to be served: the loop goes back to the `select`
when all of them complete and stays parked otherwise. -/
def serve (s : Sys) (msg : Message) (ts : List Nat) (locked : Bool) : Sys :=
  let r := deliver msg ts s.h
  { s with
    h := r.1
    pc := if r.2 = [] then .selecting else .sending msg r.2 locked
    log := logSends (s.taken - 1) (ts.take (ts.length - r.2.length)) s.log }

/-- The case `<-b.ctx.Done()` (lines 41-43): `close(b.done)`, then return. -/
def exitRun (s : Sys) : Sys :=
  if s.b.done then { s with pc := .panicked }
  else { s with b := { s.b with done := true }, pc := .returned, closes := s.closes + 1 }

/-- The receive `msg := <-b.input` of line 44: the head of the buffer is
taken. -/
def takeInput (s : Sys) (msg : Message) (queue : List Message) : Sys :=
  { s with b := { s.b with input := queue }, taken := s.taken + 1, pc := .routing msg }

/-- Lines 45-58 for the message taken: the registry is read under the read lock
and the sends are made. -/
def routeMsg (order : List Nat) (s : Sys) (msg : Message) : Sys :=
  serve s msg (targets order s.b.users msg) msg.Broadcast

/-- The case `msg := <-b.input` (lines 44-58) executed without another
goroutine acting between the receive and the reading of the registry. -/
def recvInput (order : List Nat) (s : Sys) (msg : Message) (queue : List Message) : Sys :=
  routeMsg order (takeInput s msg queue) msg

/-- What one turn of `Run` does not control: whether its `select` takes the
cancellation case when both cases are ready, and the order in which a
broadcast visits the entries of the map. -/
structure RunSched where
  takeCtx : Bool
  order : List Nat
deriving DecidableEq, Repr

/-- One turn of the goroutine of `Run`: an iteration of the loop of lines
39-60 or, when it holds a message or is parked in a mailbox send, the attempt
to go on.  The state is unchanged when nothing is ready. -/
def runIter (sc : RunSched) (s : Sys) : Sys :=
  match s.pc with
  | .returned => s
  | .panicked => s
  | .routing msg => routeMsg sc.order s msg
  | .sending msg ts locked => serve s msg ts locked
  | .selecting =>
    match s.b.ctxDone, s.b.input with
    | false, [] => s
    | true, [] => exitRun s
    | false, msg :: queue => recvInput sc.order s msg queue
    | true, msg :: queue =>
      if sc.takeCtx then exitRun s else recvInput sc.order s msg queue

/-- The method `Run` (lines 38-61) executed on its own for as many turns as
there are choices in `picks`. -/
def Run (picks : List RunSched) (s : Sys) : Sys :=
  picks.foldl (fun t sc => runIter sc t) s

/-! ## Runs of the whole system -/

/-- The steps of a run: a call of `RegisterUser` or of `UnregisterUser`; a call
of `SendMessage` executing its first `select`; the second `select` of the
`i`-th waiting call of `SendMessage` firing; the cancellation of the context;
the `select` of `Run` receiving a message, alone; a turn of `Run`; and a
consumer that takes (or starts to wait for) a message on a mailbox, which makes
room for one send. -/
inductive Event where
  | register (userID : String) (recv : Nat)
  | unregister (userID : String)
  | sendEnter (msg : Message)
  | sendFire (i : Nat) (takeSend : Bool)
  | cancel
  | take
  | iterate (sc : RunSched)
  | consume (c : Nat)
deriving DecidableEq, Repr

/-- Whether `Run` holds the read lock of `usersMutex`. -/
def lockHeld : RunPc → Bool
  | .sending _ _ locked => locked
  | _ => false

/-- One step of a run.  `RegisterUser` and `UnregisterUser` wait while `Run`
holds the read lock, and a blocked `SendMessage` waits: both leave the state as
it is.  A call of `SendMessage` that meets a cancelled context in its first
`select` returns the error at once. -/
def step (s : Sys) : Event → Sys
  | .register userID recv =>
    if lockHeld s.pc then s else { s with b := RegisterUser s.b userID recv }
  | .unregister userID =>
    if lockHeld s.pc then s else { s with b := UnregisterUser s.b userID }
  | .sendEnter msg =>
    if s.b.ctxDone then s else { s with waiting := s.waiting ++ [msg] }
  | .sendFire i takeSend =>
    match s.waiting[i]? with
    | none => s
    | some msg =>
      match sendSelect takeSend s.b msg with
      | .returned .nil b1 =>
        { s with b := b1, accepted := s.accepted ++ [msg], waiting := s.waiting.eraseIdx i }
      | .returned (.new _) b1 => { s with b := b1, waiting := s.waiting.eraseIdx i }
      | .blocked => s
  | .cancel => { s with b := { s.b with ctxDone := true } }
  | .take =>
    match s.pc, s.b.input with
    | .selecting, msg :: queue => takeInput s msg queue
    | _, _ => s
  | .iterate sc => runIter sc s
  | .consume c =>
    { s with h := Function.update s.h c { (s.h c) with room := (s.h c).room + 1 } }

/-- The state a run reaches. -/
def exec (s : Sys) (evs : List Event) : Sys :=
  evs.foldl step s

/-- No mailbox is registered under two ids. -/
def NoAlias (users : List (String × Nat)) : Prop :=
  (users.map Prod.snd).Nodup

instance (users : List (String × Nat)) : Decidable (NoAlias users) := by
  unfold NoAlias; infer_instance

/-- Throughout the run no mailbox is registered under two ids. -/
def NoAliasRun (s : Sys) : List Event → Prop
  | [] => NoAlias s.b.users
  | e :: es => NoAlias s.b.users ∧ NoAliasRun (step s e) es

instance decNoAliasRun : (evs : List Event) → (s : Sys) → Decidable (NoAliasRun s evs)
  | [], s => inferInstanceAs (Decidable (NoAlias s.b.users))
  | e :: es, s => @instDecidableAnd _ _ _ (decNoAliasRun es (step s e))

/-- The channel `done` is closed exactly when `Run` has returned, by one
execution of `close(b.done)`, and `Run` has not panicked. -/
def DoneInv (s : Sys) : Prop :=
  (s.pc = .returned → s.b.done = true ∧ s.closes = 1) ∧
  (s.pc ≠ .returned → s.b.done = false ∧ s.closes = 0) ∧
  s.pc ≠ .panicked

/-- Consistency of the history variables with the state of the program: the
queue holds the accepted messages not yet taken, in order; every log lists
positions of messages already taken, in non-decreasing order, and names the
messages the mailbox has received; a message being sent is the last one taken;
a message taken and not yet routed has been sent nowhere; and a unicast message
is sent at most once. -/
structure Inv (s : Sys) : Prop where
  queue : s.b.input = s.accepted.drop s.taken
  taken_le : s.taken ≤ s.accepted.length
  log_lt : ∀ c, ∀ i ∈ s.log c, i < s.taken
  log_sorted : ∀ c, (s.log c).Pairwise (fun i j => i ≤ j)
  log_msgs : ∀ c, (s.log c).map (fun i => s.accepted[i]?) = (s.h c).received.map some
  current : ∀ msg rest lk, s.pc = .sending msg rest lk →
    0 < s.taken ∧ s.accepted[s.taken - 1]? = some msg
  held : ∀ msg, s.pc = .routing msg →
    0 < s.taken ∧ s.accepted[s.taken - 1]? = some msg ∧ ∀ c, s.taken - 1 ∉ s.log c
  uni_pending : ∀ msg rest lk, s.pc = .sending msg rest lk → msg.Broadcast = false →
    rest.Nodup ∧ ∀ c ∈ rest, s.taken - 1 ∉ s.log c
  uni_once : ∀ c i m, s.accepted[i]? = some m → m.Broadcast = false →
    (s.log c).count i ≤ 1

/-- What holds in addition as long as no mailbox is registered under two ids:
no position occurs twice in a log, what a mailbox has received is a sublist of
the messages taken, and the channels still to be served are distinct and have
not yet been sent the current message. -/
structure InvNA (s : Sys) : Prop where
  pending : ∀ msg rest lk, s.pc = .sending msg rest lk →
    rest.Nodup ∧ (∀ c ∈ rest, s.taken - 1 ∉ s.log c) ∧
    (∀ c ∈ rest, ((s.h c).received).Sublist (s.accepted.take (s.taken - 1)))
  held : ∀ msg, s.pc = .routing msg →
    ∀ c, ((s.h c).received).Sublist (s.accepted.take (s.taken - 1))
  log_nodup : ∀ c, (s.log c).Nodup
  sub : ∀ c, ((s.h c).received).Sublist (s.accepted.take s.taken)

/-! ## Concrete scenarios -/

/-- The state reached when alice and bob have registered distinct mailboxes,
each with room for one message, and alice's message to bob has been
accepted. -/
def unicastSys : Sys :=
  exec (Sys.init false (fun _ => 1))
    [ .register "alice" 0, .register "bob" 1,
      .sendEnter ⟨"alice", "bob", "hi", false, 7⟩, .sendFire 0 true ]

/-- The state reached when alice and bob have registered the same mailbox, which
has room for two messages, and a broadcast of alice has been accepted. -/
def aliasSys : Sys :=
  exec (Sys.init false (fun _ => 2))
    [ .register "alice" 0, .register "bob" 0,
      .sendEnter ⟨"alice", "", "hello all", true, 8⟩, .sendFire 0 true ]

/-- The state reached when alice and bob have registered distinct mailboxes,
each with room for one message, and a broadcast of alice has been accepted. -/
def broadcastSys : Sys :=
  exec (Sys.init false (fun _ => 1))
    [ .register "alice" 0, .register "bob" 1,
      .sendEnter ⟨"alice", "", "hello all", true, 8⟩, .sendFire 0 true ]

/-- Alice and bob register, two messages are accepted, and the context is
cancelled before `Run` takes any of them. -/
def cancelRun : List Event :=
  [ .register "alice" 0, .register "bob" 1,
    .sendEnter ⟨"alice", "bob", "hi", false, 7⟩, .sendFire 0 true,
    .sendEnter ⟨"bob", "alice", "yo", false, 9⟩, .sendFire 0 true,
    .cancel ]

/-- A cancelled system, `Run` at its `select`, two messages still queued, room
for one message in every mailbox. -/
def cancelledSys : Sys :=
  exec (Sys.init false (fun _ => 1)) cancelRun

/-- The state reached when alice and bob have registered, bob has unregistered,
and alice's message to bob has been accepted. -/
def unroutableSys : Sys :=
  exec (Sys.init false (fun _ => 1))
    [ .register "alice" 0, .register "bob" 1, .unregister "bob",
      .sendEnter ⟨"alice", "bob", "hi", false, 7⟩, .sendFire 0 true ]

/-- A cancelled system with alice's message to bob still queued, while no
mailbox has room: nobody is reading bob's mailbox. -/
def stalledSys : Sys :=
  exec (Sys.init false (fun _ => 0))
    [ .register "alice" 0, .register "bob" 1,
      .sendEnter ⟨"alice", "bob", "hi", false, 7⟩, .sendFire 0 true,
      .cancel ]

/-- The state reached when `Run` has taken alice's message to bob, is parked in
the send because nobody reads bob's mailbox, and the context is then
cancelled. -/
def parkedSys : Sys :=
  exec (Sys.init false (fun _ => 0))
    [ .register "alice" 0, .register "bob" 1,
      .sendEnter ⟨"alice", "bob", "hi", false, 7⟩, .sendFire 0 true,
      .iterate ⟨false, []⟩, .cancel ]

/-- A cancelled system, two messages still queued, and room for four messages
in every mailbox. -/
def roomySys : Sys :=
  exec (Sys.init false (fun _ => 4)) cancelRun

/-- A run in which alice and bob register distinct mailboxes, three messages are
accepted (alice to bob, bob to alice, a broadcast of alice) and `Run` dispatches
the three; a registry call falls between the receive of the second message and
its routing. -/
def fifoRun : List Event :=
  [ .register "alice" 0, .register "bob" 1,
    .sendEnter ⟨"alice", "bob", "hi", false, 7⟩,
    .sendEnter ⟨"bob", "alice", "yo", false, 9⟩,
    .sendFire 0 true, .sendFire 0 true,
    .sendEnter ⟨"alice", "", "hello all", true, 8⟩, .sendFire 0 true,
    .iterate ⟨false, []⟩,
    .take, .unregister "carol", .iterate ⟨false, []⟩,
    .iterate ⟨false, [0, 1]⟩ ]

/-- A run in which alice and bob register the same mailbox, a broadcast of alice
is accepted and `Run` dispatches it. -/
def sharedRun : List Event :=
  [ .register "alice" 0, .register "bob" 0,
    .sendEnter ⟨"alice", "", "hello all", true, 8⟩, .sendFire 0 true,
    .iterate ⟨false, []⟩ ]

/-- A run in which alice and bob register the same mailbox, two broadcasts are
accepted and `Run` dispatches both. -/
def sharedTwiceRun : List Event :=
  [ .register "alice" 0, .register "bob" 0,
    .sendEnter ⟨"alice", "", "hello all", true, 8⟩, .sendFire 0 true,
    .sendEnter ⟨"bob", "", "bye all", true, 9⟩, .sendFire 0 true,
    .iterate ⟨false, []⟩, .iterate ⟨false, []⟩ ]

/-- The state reached when alice and bob have registered distinct mailboxes, of
which alice's has room for one message and bob's for none, and a broadcast of
alice has been accepted. -/
def narrowSys : Sys :=
  exec (Sys.init false (fun c => if c = 0 then 1 else 0))
    [ .register "alice" 0, .register "bob" 1,
      .sendEnter ⟨"alice", "", "hello all", true, 8⟩, .sendFire 0 true ]

/-- The state reached when alice's call of `SendMessage` has passed its first
`select` and the context is then cancelled: the queue is empty and the call is
still to fire its second `select`. -/
def lateSenderSys : Sys :=
  exec (Sys.init false (fun _ => 1))
    [ .register "alice" 0, .register "bob" 1,
      .sendEnter ⟨"alice", "bob", "hi", false, 7⟩, .cancel ]

/-! ## A dispatch spread over several turns -/

/-- The dispatch of the broadcast `msg`, the `n`-th message `Run` has taken, as
seen in state `t`; `R` is what the mailboxes had received when it began and
`cnt c` the number of entries of the registry that named mailbox `c` then.
While `msg` is the last message taken, either `Run` is parked with part of the
entries still to be served, and mailbox `c` has received one copy for every
entry served; or the dispatch is over and it has received `cnt c` copies. -/
def Dispatching (R : Nat → List Message) (cnt : Nat → Nat) (msg : Message) (n : Nat)
    (t : Sys) : Prop :=
  n ≤ t.taken ∧
  (t.taken = n →
    (∃ rest, rest ≠ [] ∧ t.pc = .sending msg rest true ∧
      ∀ c, rest.count c ≤ cnt c ∧
        (t.h c).received = R c ++ List.replicate (cnt c - rest.count c) msg) ∨
    ((t.pc = .selecting ∨ t.pc = .returned ∨ t.pc = .panicked) ∧
      ∀ c, (t.h c).received = R c ++ List.replicate (cnt c) msg))

/-! ## Unending runs -/

/-- The goroutine of `Run` is parked in a send on a mailbox without room. -/
def Blocked (t : Sys) : Prop :=
  match t.pc with
  | .sending _ (c :: _) _ => (t.h c).room = 0
  | _ => False

instance (t : Sys) : Decidable (Blocked t) := by
  unfold Blocked; split <;> infer_instance

/-- The states of an unending run: `trace s f n` is the state after the first
`n` steps of `f`. -/
def trace (s : Sys) (f : Nat → Event) : Nat → Sys
  | 0 => s
  | n + 1 => step (trace s f n) (f n)

/-- The messages that may still reach `Run` once the context is cancelled: those
queued and those of the calls of `SendMessage` past their first `select`. -/
def backlog (t : Sys) : Nat :=
  t.b.input.length + t.waiting.length

/-- What `Run` has before it after cancellation, in two parts compared in
order: twice the backlog, plus one while a message taken is not yet routed; and
the number of sends left in the dispatch at hand. -/
def runRank (t : Sys) : Nat × Nat :=
  match t.pc with
  | .routing _ => (2 * backlog t + 1, 0)
  | .sending _ rest _ => (2 * backlog t, rest.length + 1)
  | _ => (2 * backlog t, 0)

end Chatcore

/-!
User validation (labs/lab01/backend/user/user.go).

A Go string is modelled by a Lean `String`, a sequence of Unicode characters:
the well-formed UTF-8 strings.  `len` of a Go string is its number of bytes,
`String.utf8ByteSize`.  Go's `int` is the 64-bit two's complement integer, an
`Int` with wrap-around made explicit.  An `error` is `nil` or a value made by
`errors.New`.
-/

namespace Lab01

/-! ## Data model of lab01 -/

/-- A Go `error`: `nil`, or the value of `errors.New text`. -/
inductive Error where
  | nil
  | new (text : String)
deriving DecidableEq, Repr

/-- The variable `ErrInvalidName` (line 11). -/
def ErrInvalidName : Error := .new "invalid name: must be between 1 and 30 characters"

/-- The variable `ErrInvalidAge` (line 12). -/
def ErrInvalidAge : Error := .new "invalid age: must be between 0 and 150"

/-- The variable `ErrInvalidEmail` (line 13). -/
def ErrInvalidEmail : Error := .new "invalid email format"

/-- The struct `User` (lines 17-21). -/
structure User where
  Name : String
  Age : Int
  Email : String
deriving DecidableEq, Repr

/-- The smallest value of Go's `int`. -/
def minInt : Int := -9223372036854775808

/-- The largest value of Go's `int`. -/
def maxInt : Int := 9223372036854775807

/-- The result of an `int` operation whose exact value is `x`: two's complement
wrap-around. -/
def wrapInt (x : Int) : Int :=
  (x + 9223372036854775808) % 18446744073709551616 - 9223372036854775808

/-! ## Validation -/

/-- The function `IsValidName` (lines 77-80): `len(name)` counts bytes. -/
def IsValidName (name : String) : Bool :=
  decide (name.utf8ByteSize ≥ 1) && decide (name.utf8ByteSize ≤ 30)

/-- The function `IsValidAge` (lines 83-85). -/
def IsValidAge (age : Int) : Bool :=
  decide (age ≥ 0) && decide (age ≤ 150)

/-! ## Regular expressions, as far as `IsValidEmail` uses them -/

/-- Regular expressions over characters: nothing, the empty string, one
character of a class, concatenation, alternative, repetition. -/
inductive Regex where
  | fail
  | eps
  | cls (p : Char → Bool)
  | cat (r t : Regex)
  | alt (r t : Regex)
  | star (r : Regex)

/-- The operator `+` of the pattern syntax: one or more. -/
def Regex.plus (r : Regex) : Regex := .cat r (.star r)

/-- The strings an expression matches from beginning to end. -/
def Regex.Lang : Regex → List Char → Prop
  | .fail, _ => False
  | .eps, s => s = []
  | .cls p, s => ∃ c, s = [c] ∧ p c = true
  | .cat r t, s => ∃ a b, s = a ++ b ∧ r.Lang a ∧ t.Lang b
  | .alt r t, s => r.Lang s ∨ t.Lang s
  | .star r, s => ∃ L : List (List Char), s = L.flatten ∧ ∀ x ∈ L, x ≠ [] ∧ r.Lang x

/-- Whether the expression matches the empty string. -/
def Regex.nullable : Regex → Bool
  | .fail => false
  | .eps => true
  | .cls _ => false
  | .cat r t => r.nullable && t.nullable
  | .alt r t => r.nullable || t.nullable
  | .star _ => true

/-- What is left of the expression once the character `c` is read. -/
def Regex.deriv : Regex → Char → Regex
  | .fail, _ => .fail
  | .eps, _ => .fail
  | .cls p, c => if p c then .eps else .fail
  | .cat r t, c =>
    if r.nullable then .alt (.cat (r.deriv c) t) (t.deriv c) else .cat (r.deriv c) t
  | .alt r t, c => .alt (r.deriv c) (t.deriv c)
  | .star r, c => .cat (r.deriv c) (.star r)

/-- The matcher: the expression matches the whole of `s`. -/
def Regex.fullMatch : Regex → List Char → Bool
  | r, [] => r.nullable
  | r, c :: s => (r.deriv c).fullMatch s

/-- The class `\s` of the pattern syntax: tab, newline, form feed, carriage
return and space. -/
def isSpace (c : Char) : Bool :=
  c == '\t' || c == '\n' || c == '\x0c' || c == '\r' || c == ' '

/-- The class `[^\s@]` of the pattern. -/
def notSpaceAt (c : Char) : Bool :=
  !(isSpace c || c == '@')

/-- The pattern of line 72 between its anchors:
`[^\s@]+`, `@`, `[^\s@]+`, `\.`, `[^\s@]+`. -/
def emailRegex : Regex :=
  .cat (.plus (.cls notSpaceAt))
    (.cat (.cls (fun c => c == '@'))
      (.cat (.plus (.cls notSpaceAt))
        (.cat (.cls (fun c => c == '.'))
          (.plus (.cls notSpaceAt)))))

/-- The method `MatchString` for a pattern that opens with `^` and closes with
`$`, no flag set: the anchors match at the beginning and at the end of the text
only, so the pattern has to match the whole text. -/
def MatchString (re : Regex) (s : String) : Bool :=
  re.fullMatch s.data

/-- The function `IsValidEmail` (lines 63-74); `strings.Count(email, "@")` is
the number of characters `@`. -/
def IsValidEmail (email : String) : Bool :=
  if email.data.count '@' ≠ 1 then false
  else MatchString emailRegex email

/-! ## Validate, NewUser, String -/

/-- The method `Validate` (lines 24-38). -/
def User.Validate (u : User) : Error :=
  if !IsValidName u.Name then ErrInvalidName
  else if !IsValidAge u.Age then ErrInvalidAge
  else if !IsValidEmail u.Email then ErrInvalidEmail
  else .nil

/-- The function `NewUser` (lines 47-59): the pointer returned is `none` for
nil. -/
def NewUser (name : String) (age : Int) (email : String) : Option User × Error :=
  let u : User := { Name := name, Age := age, Email := email }
  match u.Validate with
  | .nil => (some u, .nil)
  | .new text => (none, .new text)

/-- The conversion `byte('0' + d)` of line 100. -/
def digitByte (d : Int) : Char :=
  Char.ofNat ((48 + d) % 256).toNat

/-- The loop of lines 98-102 on the buffer `b [20]byte`: `pos` is the index
below which the buffer is still free, `buf` is `b[pos:]`.  `none` is the panic
of an index out of range. -/
def itoaLoop : Nat → Int → List Char → Option (Nat × List Char)
  | 0, i, buf => if i > 0 then none else some (0, buf)
  | pos + 1, i, buf =>
    if i > 0 then itoaLoop pos (i.tdiv 10) (digitByte (i.tmod 10) :: buf)
    else some (pos + 1, buf)

/-- The function `itoa` (lines 88-108) on an `int` value `i`; `none` is the
panic of an index out of range. -/
def itoa (i : Int) : Option String :=
  if i = 0 then some "0"
  else
    let neg := decide (i < 0)
    let i1 := if neg then wrapInt (-i) else i
    match itoaLoop 20 i1 [] with
    | none => none
    | some (pos, buf) =>
      if neg then
        match pos with
        | 0 => none
        | _ + 1 => some (String.mk ('-' :: buf))
      else some (String.mk buf)

/-- The method `String` (lines 41-44). -/
def User.String (u : User) : Option String :=
  (itoa u.Age).map (fun age => "Name: " ++ u.Name ++ ", Age: " ++ age ++ ", Email: " ++ u.Email)

end Lab01

namespace Chatcore

/-! ## Facts about mailbox sends -/

theorem chanSend_some (h : Chans) (c : Nat) (msg : Message) (hr : 0 < (h c).room) :
    chanSend h c msg = some (Function.update h c
      { received := (h c).received ++ [msg], room := (h c).room - 1 }) := by
  simp [chanSend, hr]

theorem chanSend_none (h : Chans) (c : Nat) (msg : Message) (hr : (h c).room = 0) :
    chanSend h c msg = none := by
  simp [chanSend, hr]

/-- What the sends of one iteration do: some initial part `sent` of the target
list is served, every mailbox gains one copy of the message per occurrence in
`sent` and loses as much room, and the loop stops early only in front of a
mailbox without room. -/
theorem deliver_spec (msg : Message) (ts : List Nat) (h : Chans) :
    ∃ sent : List Nat, ts = sent ++ (deliver msg ts h).2 ∧
      (∀ c, ((deliver msg ts h).1 c).received
          = (h c).received ++ List.replicate (sent.count c) msg) ∧
      (∀ c, ((deliver msg ts h).1 c).room + sent.count c = (h c).room) ∧
      (∀ c rest, (deliver msg ts h).2 = c :: rest → ((deliver msg ts h).1 c).room = 0) := by
  induction ts generalizing h with
  | nil => exact ⟨[], by simp [deliver]⟩
  | cons t ts ih =>
    by_cases hr : 0 < (h t).room
    · obtain ⟨sent, h1, h2, h3, h4⟩ := ih (Function.update h t
        { received := (h t).received ++ [msg], room := (h t).room - 1 })
      refine ⟨t :: sent, ?_, ?_, ?_, ?_⟩
      · simp only [deliver, chanSend_some h t msg hr, List.cons_append]
        exact congrArg _ h1
      · intro c
        simp only [deliver, chanSend_some h t msg hr]
        rw [h2 c]
        by_cases hc : c = t
        · subst hc
          simp [List.count_cons, List.replicate_succ]
        · have hc2 : t ≠ c := fun e => hc e.symm
          simp [Function.update_noteq hc, List.count_cons, hc2]
      · intro c
        simp only [deliver, chanSend_some h t msg hr]
        have := h3 c
        by_cases hc : c = t
        · subst hc
          simp [List.count_cons] at this ⊢
          omega
        · have hc2 : t ≠ c := fun e => hc e.symm
          simp [Function.update_noteq hc, List.count_cons, hc2] at this ⊢
          exact this
      · intro c rest
        simp only [deliver, chanSend_some h t msg hr]
        exact h4 c rest
    · have hr0 : (h t).room = 0 := by omega
      refine ⟨[], ?_, ?_, ?_, ?_⟩
      · simp [deliver, chanSend_none h t msg hr0]
      · intro c; simp [deliver, chanSend_none h t msg hr0]
      · intro c; simp [deliver, chanSend_none h t msg hr0]
      · intro c rest
        simp only [deliver, chanSend_none h t msg hr0]
        intro e
        simp only [List.cons.injEq] at e
        rw [← e.1]; exact hr0

/-- Every send of the iteration completes when each mailbox has room for the
copies addressed to it. -/
theorem deliver_complete (msg : Message) (ts : List Nat) (h : Chans)
    (hroom : ∀ c, ts.count c ≤ (h c).room) : (deliver msg ts h).2 = [] := by
  induction ts generalizing h with
  | nil => simp [deliver]
  | cons t ts ih =>
    have ht : 0 < (h t).room := by
      have := hroom t
      simp [List.count_cons] at this
      omega
    simp only [deliver, chanSend_some h t msg ht]
    apply ih
    intro c
    have := hroom c
    by_cases hc : c = t
    · subst hc
      simp [List.count_cons] at this ⊢
      omega
    · have hc2 : t ≠ c := fun e => hc e.symm
      simp [Function.update_noteq hc, List.count_cons, hc2] at this ⊢
      exact this


/-! ## Facts about one iteration of `Run` -/

theorem runIter_recv (sc : RunSched) (s : Sys) (msg : Message) (queue : List Message)
    (hpc : s.pc = .selecting) (hin : s.b.input = msg :: queue)
    (hsel : s.b.ctxDone = false ∨ sc.takeCtx = false) :
    runIter sc s = recvInput sc.order s msg queue := by
  unfold runIter
  rw [hpc]
  simp only [hin]
  rcases hsel with h | h
  · rw [h]
  · cases hc : s.b.ctxDone <;> simp [h]

theorem runIter_exit (sc : RunSched) (s : Sys)
    (hpc : s.pc = .selecting) (hctx : s.b.ctxDone = true)
    (hsel : s.b.input = [] ∨ sc.takeCtx = true) :
    runIter sc s = exitRun s := by
  unfold runIter
  rw [hpc]
  simp only [hctx]
  rcases hsel with h | h
  · rw [h]
  · cases hq : s.b.input <;> simp [h]

theorem targets_unicast (ord : List Nat) (users : List (String × Nat)) (msg : Message)
    (hb : msg.Broadcast = false) :
    targets ord users msg = (mapGet users msg.Recipient).toList := by
  simp [targets, hb]

theorem rangeUsers_perm (ord : List Nat) (users : List (String × Nat)) :
    (rangeUsers ord users).Perm (users.map Prod.snd) := by
  unfold rangeUsers
  split
  · rename_i h; exact List.isPerm_iff.mp h
  · exact List.Perm.refl _

theorem targets_broadcast (ord : List Nat) (users : List (String × Nat)) (msg : Message)
    (hb : msg.Broadcast = true) :
    targets ord users msg = rangeUsers ord users := by
  simp [targets, hb]

theorem targets_broadcast_count (ord : List Nat) (users : List (String × Nat))
    (msg : Message) (hb : msg.Broadcast = true) (c : Nat) :
    (targets ord users msg).count c = (users.map Prod.snd).count c := by
  rw [targets_broadcast ord users msg hb]
  exact (rangeUsers_perm ord users).count_eq c

theorem serve_b (s : Sys) (msg : Message) (ts : List Nat) (locked : Bool) :
    (serve s msg ts locked).b = s.b := rfl

theorem exitRun_ctxDone (s : Sys) : (exitRun s).b.ctxDone = s.b.ctxDone := by
  unfold exitRun; split <;> rfl

theorem runIter_ctxDone (sc : RunSched) (s : Sys) :
    (runIter sc s).b.ctxDone = s.b.ctxDone := by
  unfold runIter
  split
  · rfl
  · rfl
  · rfl
  · rfl
  · split
    · rfl
    · exact exitRun_ctxDone s
    · rfl
    · split
      · exact exitRun_ctxDone s
      · rfl

/-- What the second `select` of `SendMessage` leaves and changes. -/
theorem sendSelect_facts (takeSend : Bool) (b : Broker) (msg : Message) (e : GoError)
    (b1 : Broker) (h : sendSelect takeSend b msg = .returned e b1) :
    b1.ctxDone = b.ctxDone ∧ b1.users = b.users ∧ b1.done = b.done ∧
    (e = .nil → b1.input = b.input ++ [msg]) ∧
    (∀ text, e = .new text → b1 = b ∧ text = "broker shut down") := by
  unfold sendSelect at h
  cases hctx : b.ctxDone <;> cases takeSend <;>
    by_cases hq : b.input.length < inputCap <;>
    simp [hctx, hq] at h <;>
    (obtain ⟨h1, h2⟩ := h; subst h1 h2; simp [hctx])

theorem step_ctxDone (s : Sys) (e : Event) (h : s.b.ctxDone = true) :
    (step s e).b.ctxDone = true := by
  cases e with
  | register id c => simp only [step]; split <;> simp [RegisterUser, h]
  | unregister id => simp only [step]; split <;> simp [UnregisterUser, h]
  | sendEnter msg => simp [step, h]
  | sendFire i t =>
    simp only [step]
    split
    · exact h
    · split
      · rename_i b1 heq
        exact (sendSelect_facts t s.b _ _ b1 heq).1.trans h
      · rename_i text b1 heq
        exact (sendSelect_facts t s.b _ _ b1 heq).1.trans h
      · exact h
  | cancel => rfl
  | take =>
    simp only [step]
    split
    · exact h
    · exact h
  | iterate t => simp only [step]; rw [runIter_ctxDone]; exact h
  | consume c => exact h

theorem exec_ctxDone (s : Sys) (evs : List Event) (h : s.b.ctxDone = true) :
    (exec s evs).b.ctxDone = true := by
  induction evs generalizing s with
  | nil => exact h
  | cons e es ih => exact ih (step s e) (step_ctxDone s e h)

theorem logSends_spec (i : Nat) (cs : List Nat) (lg : Nat → List Nat) (c : Nat) :
    logSends i cs lg c = lg c ++ List.replicate (cs.count c) i := by
  induction cs generalizing lg with
  | nil => simp [logSends]
  | cons t ts ih =>
    simp only [logSends]
    rw [ih]
    by_cases hc : c = t
    · subst hc
      simp [List.count_cons, List.replicate_succ]
    · have hc2 : t ≠ c := fun e => hc e.symm
      simp [Function.update_noteq hc, List.count_cons, hc2]

/-- What the mailbox sends of one turn do to the state. -/
theorem serve_spec (s : Sys) (msg : Message) (ts : List Nat) (lk : Bool) :
    ∃ sent rest : List Nat, ts = sent ++ rest ∧
      (serve s msg ts lk).pc = (if rest = [] then .selecting else .sending msg rest lk) ∧
      (∀ c, ((serve s msg ts lk).h c).received
          = (s.h c).received ++ List.replicate (sent.count c) msg) ∧
      (∀ c, (serve s msg ts lk).log c
          = s.log c ++ List.replicate (sent.count c) (s.taken - 1)) ∧
      (serve s msg ts lk).b = s.b ∧ (serve s msg ts lk).accepted = s.accepted ∧
      (serve s msg ts lk).taken = s.taken ∧ (serve s msg ts lk).closes = s.closes := by
  obtain ⟨sent, h1, h2, _, _⟩ := deliver_spec msg ts s.h
  refine ⟨sent, (deliver msg ts s.h).2, h1, rfl, h2, ?_, rfl, rfl, rfl, rfl⟩
  intro c
  have hgen : ∀ rest : List Nat, ts = sent ++ rest →
      ts.take (ts.length - rest.length) = sent := by
    intro rest h
    subst h
    exact List.take_left' (by simp)
  have ht := hgen _ h1
  simp only [serve, ht]
  exact logSends_spec _ _ _ _

theorem exitRun_facts (s : Sys) :
    (exitRun s).b.input = s.b.input ∧ (exitRun s).accepted = s.accepted ∧
    (exitRun s).taken = s.taken ∧ (exitRun s).log = s.log ∧ (exitRun s).h = s.h ∧
    (exitRun s).b.users = s.b.users ∧
    ((∀ m r l, (exitRun s).pc ≠ .sending m r l) ∧ ∀ m, (exitRun s).pc ≠ .routing m) := by
  unfold exitRun
  split <;> simp

theorem sys_pc_eta (s : Sys) (pc : RunPc) (h : s.pc = pc) : { s with pc := pc } = s := by
  cases s; simp only at h; subst h; rfl

/-! ## Claims about routing -/

/-- C1: unicast routing.  When the iteration of `Run` takes a message with
`Broadcast = false` whose `Recipient` is registered on mailbox `c`: if the send
on `c` can complete, the iteration ends back at the `select` with the message
taken from the queue, mailbox `c` has received that very message after what it
had received before, and every other mailbox, the one of the sender included
when it is another mailbox, is as it was; if mailbox `c` has no room, `Run` is
parked in the send with every mailbox as it was, and as soon as a consumer
makes room the same holds of the turn that completes the send. -/
theorem unicast_routing (s : Sys) (msg : Message) (queue : List Message) (c : Nat)
    (sc : RunSched)
    (hpc : s.pc = .selecting) (hin : s.b.input = msg :: queue)
    (hsel : s.b.ctxDone = false ∨ sc.takeCtx = false)
    (hb : msg.Broadcast = false) (hreg : mapGet s.b.users msg.Recipient = some c) :
    (0 < (s.h c).room →
      (runIter sc s).pc = .selecting ∧
      (runIter sc s).b.input = queue ∧
      (runIter sc s).b.users = s.b.users ∧
      ((runIter sc s).h c).received = (s.h c).received ++ [msg] ∧
      (∀ c1, c1 ≠ c → (runIter sc s).h c1 = s.h c1) ∧
      (∀ cs, mapGet s.b.users msg.Sender = some cs → cs ≠ c →
        (runIter sc s).h cs = s.h cs)) ∧
    ((s.h c).room = 0 →
      (runIter sc s).pc = .sending msg [c] false ∧
      (runIter sc s).b.input = queue ∧
      (runIter sc s).h = s.h ∧
      (∀ sc2 : RunSched,
        (exec (runIter sc s) [.consume c, .iterate sc2]).pc = .selecting ∧
        ((exec (runIter sc s) [.consume c, .iterate sc2]).h c).received
          = (s.h c).received ++ [msg] ∧
        (∀ c1, c1 ≠ c →
          ((exec (runIter sc s) [.consume c, .iterate sc2]).h c1).received
            = (s.h c1).received))) := by
  rw [runIter_recv sc s msg queue hpc hin hsel]
  refine ⟨?_, ?_⟩
  · intro hroom
    have hd : deliver msg [c] s.h
        = (Function.update s.h c
            { received := (s.h c).received ++ [msg], room := (s.h c).room - 1 }, []) := by
      simp [deliver, chanSend_some s.h c msg hroom]
    simp only [recvInput, routeMsg, takeInput, serve, targets_unicast sc.order s.b.users msg hb,
      hreg, Option.toList, hd]
    refine ⟨by simp, trivial, trivial, by simp, ?_, ?_⟩
    · intro c1 h1
      simp [Function.update_noteq h1]
    · intro cs _ h1
      simp [Function.update_noteq h1]
  · intro hroom
    have hd : deliver msg [c] s.h = (s.h, [c]) := by
      simp [deliver, chanSend_none s.h c msg hroom]
    have hpark : (recvInput sc.order s msg queue).pc = .sending msg [c] false ∧
        (recvInput sc.order s msg queue).b.input = queue ∧
        (recvInput sc.order s msg queue).h = s.h := by
      simp [recvInput, routeMsg, takeInput, serve, targets_unicast sc.order s.b.users msg hb,
        hreg, Option.toList, hd, hb]
    refine ⟨hpark.1, hpark.2.1, hpark.2.2, ?_⟩
    intro sc2
    have hroom1 : 0 < ((Function.update s.h c
        { received := (s.h c).received, room := (s.h c).room + 1 }) c).room := by simp
    have hd2 := chanSend_some (Function.update s.h c
        { received := (s.h c).received, room := (s.h c).room + 1 }) c msg hroom1
    simp only [exec, List.foldl_cons, List.foldl_nil, step, runIter, hpark.1, hpark.2.2, serve,
      deliver, hd2]
    refine ⟨by simp, by simp, ?_⟩
    intro c1 h1
    simp [Function.update_noteq h1]

/-- C1 at the scenario of the specification: bob's mailbox receives exactly the
message and alice's mailbox receives nothing. -/
theorem unicast_routing_witness :
    ((runIter ⟨false, []⟩ unicastSys).h 1).received = [⟨"alice", "bob", "hi", false, 7⟩] ∧
    ((runIter ⟨false, []⟩ unicastSys).h 0).received = [] := by
  have h := (unicast_routing unicastSys ⟨"alice", "bob", "hi", false, 7⟩ [] 1 ⟨false, []⟩
    rfl rfl (Or.inl rfl) rfl (by decide)).1 (by decide)
  refine ⟨h.2.2.2.1, ?_⟩
  rw [h.2.2.2.2.1 0 (by decide)]
  rfl

theorem mapGet_mem (users : List (String × Nat)) (id : String) (c : Nat)
    (h : mapGet users id = some c) : c ∈ users.map Prod.snd := by
  induction users with
  | nil => simp [mapGet] at h
  | cons e es ih =>
    obtain ⟨k, v⟩ := e
    unfold mapGet at h ih
    rw [List.lookup_cons] at h
    by_cases hk : id == k
    · simp only [hk] at h
      simp only [Option.some.injEq] at h
      simp [h]
    · have hk2 : (id == k) = false := by simpa using hk
      simp only [hk2] at h
      simp [ih h]

theorem mapGet_mapDelete_self (users : List (String × Nat)) (id : String) :
    mapGet (mapDelete users id) id = none := by
  induction users with
  | nil => rfl
  | cons e es ih =>
    obtain ⟨k, v⟩ := e
    unfold mapGet mapDelete at ih ⊢
    by_cases hk : k = id
    · subst hk
      simpa [List.filter_cons] using ih
    · have h2 : ¬ (id = k) := fun e => hk e.symm
      simp only [List.filter_cons, bne_iff_ne, ne_eq, hk, not_false_eq_true, decide_True,
        if_true]
      rw [List.lookup_cons]
      have h3 : (id == k) = false := by simpa using h2
      simp only [h3]
      simpa [List.filter_cons] using ih

theorem mailbox_eq (a b : Mailbox) (h1 : a.received = b.received) (h2 : a.room = b.room) :
    a = b := by
  cases a; cases b; simp_all

/-- A goroutine parked in front of a mailbox without room stays where it is. -/
theorem runIter_parked (sc : RunSched) (s : Sys) (msg : Message) (c : Nat)
    (rest : List Nat) (locked : Bool)
    (hpc : s.pc = .sending msg (c :: rest) locked) (hroom : (s.h c).room = 0) :
    runIter sc s = s := by
  unfold runIter
  rw [hpc]
  simp only [serve, deliver, chanSend_none s.h c msg hroom]
  cases s
  simp_all [logSends]

/-- The cases of one turn of `Run`. -/
theorem runIter_cases (sc : RunSched) (s : Sys) :
    (runIter sc s = s) ∨ (s.pc = .selecting ∧ runIter sc s = exitRun s) ∨
    (s.pc = .selecting ∧ ∃ msg queue, s.b.input = msg :: queue ∧
      runIter sc s = recvInput sc.order s msg queue) ∨
    (∃ msg, s.pc = .routing msg ∧ runIter sc s = routeMsg sc.order s msg) ∨
    (∃ msg ts lk, s.pc = .sending msg ts lk ∧ runIter sc s = serve s msg ts lk) := by
  unfold runIter
  split
  · exact Or.inl rfl
  · exact Or.inl rfl
  · rename_i msg hpc
    exact Or.inr (Or.inr (Or.inr (Or.inl ⟨msg, hpc, rfl⟩)))
  · rename_i msg ts lk hpc
    exact Or.inr (Or.inr (Or.inr (Or.inr ⟨msg, ts, lk, hpc, rfl⟩)))
  · rename_i hpc
    split
    · exact Or.inl rfl
    · exact Or.inr (Or.inl ⟨hpc, rfl⟩)
    · rename_i msg queue _ hin
      exact Or.inr (Or.inr (Or.inl ⟨hpc, msg, queue, hin, rfl⟩))
    · rename_i msg queue _ hin
      split
      · exact Or.inr (Or.inl ⟨hpc, rfl⟩)
      · exact Or.inr (Or.inr (Or.inl ⟨hpc, msg, queue, hin, rfl⟩))

theorem runIter_sending (sc : RunSched) (s : Sys) (msg : Message) (ts : List Nat)
    (lk : Bool) (hpc : s.pc = .sending msg ts lk) : runIter sc s = serve s msg ts lk := by
  unfold runIter
  rw [hpc]

/-- The cases of the receive of `Run` taken alone. -/
theorem step_take_cases (s : Sys) :
    (step s .take = s) ∨
    (s.pc = .selecting ∧ ∃ msg queue, s.b.input = msg :: queue ∧
      step s .take = takeInput s msg queue) := by
  simp only [step]
  split
  · rename_i msg queue hpc hin
    exact Or.inr ⟨hpc, msg, queue, hin, rfl⟩
  · exact Or.inl rfl

/-- What the steps of the other goroutines leave alone. -/
theorem step_frame (s : Sys) (e : Event) (hi : ∀ sc, e ≠ .iterate sc) (ht : e ≠ .take) :
    (step s e).pc = s.pc ∧ (step s e).taken = s.taken ∧
    (∀ c, ((step s e).h c).received = (s.h c).received) ∧
    (∀ c, (s.h c).room ≤ ((step s e).h c).room) := by
  cases e with
  | register id c => simp only [step]; split <;> simp
  | unregister id => simp only [step]; split <;> simp
  | sendEnter msg => simp only [step]; split <;> simp
  | sendFire i t =>
    simp only [step]
    split
    · simp
    · split <;> simp
  | cancel => simp [step]
  | take => exact absurd rfl ht
  | iterate sc => exact absurd rfl (hi sc)
  | consume c =>
    refine ⟨rfl, rfl, ?_, ?_⟩
    · intro c1
      simp only [step]
      by_cases h : c1 = c
      · subst h; simp
      · simp [Function.update_noteq h]
    · intro c1
      simp only [step]
      by_cases h : c1 = c
      · subst h; simp
      · simp [Function.update_noteq h]

theorem runIter_taken_le (sc : RunSched) (s : Sys) : s.taken ≤ (runIter sc s).taken := by
  rcases runIter_cases sc s with h | ⟨_, h⟩ | ⟨_, msg, queue, _, h⟩ | ⟨m, _, h⟩ | ⟨m, ts, lk, _, h⟩
  · rw [h]
  · rw [h, (exitRun_facts s).2.2.1]
  · rw [h]; exact Nat.le_succ _
  · rw [h]; exact Nat.le_refl _
  · rw [h]; exact Nat.le_refl _

theorem step_taken_le (s : Sys) (e : Event) : s.taken ≤ (step s e).taken := by
  by_cases hi : ∃ sc, e = .iterate sc
  · obtain ⟨sc, rfl⟩ := hi
    exact runIter_taken_le sc s
  · by_cases ht : e = .take
    · subst ht
      rcases step_take_cases s with h | ⟨_, msg, queue, _, h⟩
      · rw [h]
      · rw [h]; exact Nat.le_succ _
    · rw [(step_frame s e (fun sc h => hi ⟨sc, h⟩) ht).2.1]

theorem dispatching_transfer (R : Nat → List Message) (cnt : Nat → Nat) (msg : Message)
    (n : Nat) (t u : Sys) (hD : Dispatching R cnt msg n t)
    (h1 : u.pc = t.pc) (h2 : u.taken = t.taken)
    (h3 : ∀ c, (u.h c).received = (t.h c).received) : Dispatching R cnt msg n u := by
  unfold Dispatching at hD ⊢
  rw [h1, h2]
  simp only [h3]
  exact hD

/-- No step of a run breaks `Dispatching`: the entries still to be served
are served one by one, each mailbox receiving one copy per entry, and nothing
else sends on a mailbox before the dispatch is over. -/
theorem dispatching_step (R : Nat → List Message) (cnt : Nat → Nat) (msg : Message)
    (n : Nat) (t : Sys) (e : Event) (hD : Dispatching R cnt msg n t) :
    Dispatching R cnt msg n (step t e) := by
  by_cases hi : ∃ sc, e = .iterate sc
  · obtain ⟨sc, rfl⟩ := hi
    show Dispatching R cnt msg n (runIter sc t)
    obtain ⟨hle, hd⟩ := hD
    rcases runIter_cases sc t with h | ⟨hpc, h⟩ | ⟨_, m, queue, _, h⟩ | ⟨m, hpc, h⟩ |
      ⟨m, ts, lk, hpc, h⟩
    · rw [h]; exact ⟨hle, hd⟩
    · obtain ⟨_, _, h3, _, h5, _, h6, h7⟩ := exitRun_facts t
      rw [h]
      refine ⟨by rw [h3]; exact hle, ?_⟩
      intro heq
      rw [h3] at heq
      rcases hd heq with ⟨rest, _, hp, _⟩ | ⟨_, hfull⟩
      · rw [hpc] at hp; exact RunPc.noConfusion hp
      · refine Or.inr ⟨?_, fun c => by rw [h5]; exact hfull c⟩
        unfold exitRun
        split
        · exact Or.inr (Or.inr rfl)
        · exact Or.inr (Or.inl rfl)
    · rw [h]
      have ht : (recvInput sc.order t m queue).taken = t.taken + 1 := rfl
      refine ⟨by rw [ht]; omega, ?_⟩
      intro heq
      rw [ht] at heq
      have hn : t.taken = n → False := by
        intro hh
        rcases hd hh with ⟨rest, _, hp, _⟩ | ⟨_, _⟩ <;> omega
      omega
    · rw [h]
      have ht : (routeMsg sc.order t m).taken = t.taken := rfl
      refine ⟨by rw [ht]; exact hle, ?_⟩
      intro heq
      rw [ht] at heq
      rcases hd heq with ⟨rest, _, hp, _⟩ | ⟨hp, _⟩
      · rw [hpc] at hp; exact RunPc.noConfusion hp
      · rw [hpc] at hp
        rcases hp with hp | hp | hp <;> exact RunPc.noConfusion hp
    · rw [h]
      obtain ⟨sent, rest2, e1, e2, e3, _, _, _, e7, _⟩ := serve_spec t m ts lk
      refine ⟨by rw [e7]; exact hle, ?_⟩
      intro heq
      rw [e7] at heq
      rcases hd heq with ⟨rest, _, hp, hc⟩ | ⟨hp, _⟩
      · rw [hpc] at hp
        injection hp with g1 g2 g3
        subst g1 g2 g3
        by_cases hr : rest2 = []
        · subst hr
          rw [List.append_nil] at e1
          subst e1
          refine Or.inr ⟨by rw [e2]; simp, ?_⟩
          intro c
          rw [e3 c, (hc c).2, List.append_assoc, ← List.replicate_add]
          congr 2
          have := (hc c).1
          omega
        · refine Or.inl ⟨rest2, hr, by rw [e2, if_neg hr], ?_⟩
          intro c
          have hcnt : ts.count c = sent.count c + rest2.count c := by
            rw [e1, List.count_append]
          have := (hc c).1
          refine ⟨by omega, ?_⟩
          rw [e3 c, (hc c).2, List.append_assoc, ← List.replicate_add]
          congr 2
          omega
      · rw [hpc] at hp
        rcases hp with hp | hp | hp <;> exact RunPc.noConfusion hp
  · by_cases ht : e = .take
    · subst ht
      rcases step_take_cases t with h | ⟨_, m, queue, _, h⟩
      · rw [h]; exact hD
      · rw [h]
        obtain ⟨hle, hd⟩ := hD
        have htk : (takeInput t m queue).taken = t.taken + 1 := rfl
        refine ⟨by rw [htk]; omega, ?_⟩
        intro heq
        rw [htk] at heq
        omega
    · obtain ⟨h1, h2, h3, _⟩ := step_frame t e (fun sc h => hi ⟨sc, h⟩) ht
      exact dispatching_transfer R cnt msg n t _ hD h1 h2 h3

theorem dispatching_exec (R : Nat → List Message) (cnt : Nat → Nat) (msg : Message)
    (n : Nat) (t : Sys) (evs : List Event) (hD : Dispatching R cnt msg n t) :
    Dispatching R cnt msg n (exec t evs) := by
  induction evs generalizing t with
  | nil => exact hD
  | cons e es ih => exact ih (step t e) (dispatching_step R cnt msg n t e hD)

/-- The reading of the registry starts the dispatch of a broadcast. -/
theorem dispatching_route (ord : List Nat) (u : Sys) (msg : Message)
    (hb : msg.Broadcast = true) :
    Dispatching (fun c => (u.h c).received) (fun c => (u.b.users.map Prod.snd).count c)
      msg u.taken (routeMsg ord u msg) := by
  obtain ⟨sent, rest, e1, e2, e3, _, _, _, e7, _⟩ :=
    serve_spec u msg (targets ord u.b.users msg) msg.Broadcast
  have hpc : (routeMsg ord u msg).pc
      = if rest = [] then .selecting else .sending msg rest true := by
    rw [← hb]; exact e2
  have hrec : ∀ c, ((routeMsg ord u msg).h c).received
      = (u.h c).received ++ List.replicate (sent.count c) msg := e3
  have hcnt : ∀ c, (u.b.users.map Prod.snd).count c = sent.count c + rest.count c := by
    intro c
    rw [← targets_broadcast_count ord u.b.users msg hb c]
    rw [e1, List.count_append]
  refine ⟨Nat.le_refl _, fun _ => ?_⟩
  by_cases hr : rest = []
  · refine Or.inr ⟨by rw [hpc, if_pos hr]; exact Or.inl rfl, ?_⟩
    intro c
    rw [hrec c]
    have := hcnt c
    rw [hr] at this
    simp only [List.count_nil, Nat.add_zero] at this
    simp only [this]
  · refine Or.inl ⟨rest, hr, by rw [hpc, if_neg hr], ?_⟩
    intro c
    have := hcnt c
    refine ⟨by simp only; omega, ?_⟩
    rw [hrec c]
    congr 2
    simp only
    omega

/-- The turn of `Run` that takes a broadcast starts its dispatch. -/
theorem dispatching_start (ord : List Nat) (s : Sys) (msg : Message) (queue : List Message)
    (hb : msg.Broadcast = true) :
    Dispatching (fun c => (s.h c).received) (fun c => (s.b.users.map Prod.snd).count c)
      msg (s.taken + 1) (recvInput ord s msg queue) :=
  dispatching_route ord (takeInput s msg queue) msg hb

/-- What the count of copies says for the mailboxes of the registry. -/
theorem broadcast_counts (users : List (String × Nat)) (msg : Message)
    (R rec : Nat → List Message)
    (hfull : ∀ c, rec c = R c ++ List.replicate ((users.map Prod.snd).count c) msg) :
    (∀ c, (users.map Prod.snd).count c = 1 → rec c = R c ++ [msg]) ∧
    (NoAlias users → ∀ id c, mapGet users id = some c → rec c = R c ++ [msg]) ∧
    (∀ id c, mapGet users id = some c → ∃ k, rec c = R c ++ msg :: List.replicate k msg) ∧
    (∀ c, c ∉ users.map Prod.snd → rec c = R c) := by
  refine ⟨?_, ?_, ?_, ?_⟩
  · intro c hc
    rw [hfull c, hc]; rfl
  · intro hna id c hreg
    have hmem := mapGet_mem users id c hreg
    rw [hfull c, List.count_eq_one_of_mem hna hmem]; rfl
  · intro id c hreg
    have hmem := mapGet_mem users id c hreg
    have hpos : 0 < (users.map Prod.snd).count c := List.count_pos_iff.mpr hmem
    refine ⟨(users.map Prod.snd).count c - 1, ?_⟩
    rw [hfull c, ← List.replicate_succ]
    congr 2
    omega
  · intro c hc
    rw [hfull c, List.count_eq_zero_of_not_mem hc]; simp

/-- C2: broadcast routing.  `Run` takes a message with `Broadcast = true`; the
registry is read in the same turn, under the read lock, which is held until the
last send.

When every mailbox has room for its copies, the turn ends back at the `select`
and each mailbox has received, after what it had received before, one copy of
that very message for every entry of the registry that names it: exactly one
copy when a single id is registered with the mailbox (so exactly one for every
registered mailbox when no two ids share a mailbox), at least one for the
mailbox of any registered id, the sender's included, and a mailbox that is not
registered is as it was.

When a send finds no room, `Run` is parked in it and the dispatch goes on in
later turns, other goroutines acting in between.  In every state of every such
run in which the broadcast is still the last message taken, either `Run` is
parked with some entries still to be served, each mailbox having received one
copy for every entry served so far and at most one per entry, or the dispatch
is over and the same counts hold as above.  A parked dispatch is completed by
the turn that finds room for all the copies left, and stays as it is in a turn
that finds no room in the mailbox at hand.

When other goroutines act between the receive and the reading of the registry,
the same holds of the registry as `Run` reads it: from every state `u` in which
`Run` holds the broadcast, taken and not yet routed, the dispatch serves the
entries that the registry of `u` has. -/
theorem broadcast_routing (s : Sys) (msg : Message) (queue : List Message)
    (sc : RunSched)
    (hpc : s.pc = .selecting) (hin : s.b.input = msg :: queue)
    (hsel : s.b.ctxDone = false ∨ sc.takeCtx = false)
    (hb : msg.Broadcast = true) :
    ((∀ c, (s.b.users.map Prod.snd).count c ≤ (s.h c).room) →
      (runIter sc s).pc = .selecting ∧
      (runIter sc s).b.input = queue ∧
      (∀ c, ((runIter sc s).h c).received
          = (s.h c).received ++ List.replicate ((s.b.users.map Prod.snd).count c) msg) ∧
      (∀ c, (s.b.users.map Prod.snd).count c = 1 →
          ((runIter sc s).h c).received = (s.h c).received ++ [msg]) ∧
      (NoAlias s.b.users → ∀ id c, mapGet s.b.users id = some c →
          ((runIter sc s).h c).received = (s.h c).received ++ [msg]) ∧
      (∀ id c, mapGet s.b.users id = some c → ∃ k,
          ((runIter sc s).h c).received = (s.h c).received ++ msg :: List.replicate k msg) ∧
      (∀ c, c ∉ s.b.users.map Prod.snd → (runIter sc s).h c = s.h c)) ∧
    (∀ evs : List Event, (exec (runIter sc s) evs).taken = s.taken + 1 →
      (∃ rest, rest ≠ [] ∧ (exec (runIter sc s) evs).pc = .sending msg rest true ∧
        ∀ c, rest.count c ≤ (s.b.users.map Prod.snd).count c ∧
          ((exec (runIter sc s) evs).h c).received
            = (s.h c).received
              ++ List.replicate ((s.b.users.map Prod.snd).count c - rest.count c) msg) ∨
      (((exec (runIter sc s) evs).pc = .selecting ∨
          (exec (runIter sc s) evs).pc = .returned ∨
          (exec (runIter sc s) evs).pc = .panicked) ∧
        (∀ c, ((exec (runIter sc s) evs).h c).received
            = (s.h c).received ++ List.replicate ((s.b.users.map Prod.snd).count c) msg) ∧
        (∀ c, (s.b.users.map Prod.snd).count c = 1 →
            ((exec (runIter sc s) evs).h c).received = (s.h c).received ++ [msg]) ∧
        (NoAlias s.b.users → ∀ id c, mapGet s.b.users id = some c →
            ((exec (runIter sc s) evs).h c).received = (s.h c).received ++ [msg]) ∧
        (∀ id c, mapGet s.b.users id = some c → ∃ k,
            ((exec (runIter sc s) evs).h c).received
              = (s.h c).received ++ msg :: List.replicate k msg) ∧
        (∀ c, c ∉ s.b.users.map Prod.snd →
            ((exec (runIter sc s) evs).h c).received = (s.h c).received))) ∧
    (∀ (evs : List Event) (rest : List Nat),
      (exec (runIter sc s) evs).taken = s.taken + 1 →
      (exec (runIter sc s) evs).pc = .sending msg rest true →
      ((∀ c, rest.count c ≤ ((exec (runIter sc s) evs).h c).room) →
        ∀ sc2 : RunSched,
          (runIter sc2 (exec (runIter sc s) evs)).pc = .selecting ∧
          ∀ c, ((runIter sc2 (exec (runIter sc s) evs)).h c).received
            = (s.h c).received
              ++ List.replicate ((s.b.users.map Prod.snd).count c) msg) ∧
      (∀ c rest2, rest = c :: rest2 → ((exec (runIter sc s) evs).h c).room = 0 →
        ∀ sc2 : RunSched,
          runIter sc2 (exec (runIter sc s) evs) = exec (runIter sc s) evs)) ∧
    (∀ (u : Sys) (sc2 : RunSched) (evs : List Event), u.pc = .routing msg →
      (exec (runIter sc2 u) evs).taken = u.taken →
      (∃ rest, rest ≠ [] ∧ (exec (runIter sc2 u) evs).pc = .sending msg rest true ∧
        ∀ c, rest.count c ≤ (u.b.users.map Prod.snd).count c ∧
          ((exec (runIter sc2 u) evs).h c).received
            = (u.h c).received
              ++ List.replicate ((u.b.users.map Prod.snd).count c - rest.count c) msg) ∨
      (((exec (runIter sc2 u) evs).pc = .selecting ∨
          (exec (runIter sc2 u) evs).pc = .returned ∨
          (exec (runIter sc2 u) evs).pc = .panicked) ∧
        ∀ c, ((exec (runIter sc2 u) evs).h c).received
            = (u.h c).received
              ++ List.replicate ((u.b.users.map Prod.snd).count c) msg)) := by
  have hrun : runIter sc s = recvInput sc.order s msg queue :=
    runIter_recv sc s msg queue hpc hin hsel
  have hD : ∀ evs, Dispatching (fun c => (s.h c).received)
      (fun c => (s.b.users.map Prod.snd).count c) msg (s.taken + 1)
      (exec (runIter sc s) evs) := by
    intro evs
    rw [hrun]
    exact dispatching_exec _ _ msg _ _ evs (dispatching_start sc.order s msg queue hb)
  refine ⟨?_, ?_, ?_, ?_⟩
  · intro hroom
    have hcnt := targets_broadcast_count sc.order s.b.users msg hb
    have hdone := deliver_complete msg (targets sc.order s.b.users msg) s.h
      (fun c => by rw [hcnt c]; exact hroom c)
    obtain ⟨sent, h1, h2, h3, _⟩ := deliver_spec msg (targets sc.order s.b.users msg) s.h
    rw [hdone, List.append_nil] at h1
    rw [hrun]
    simp only [recvInput, routeMsg, takeInput, serve, hdone]
    have hrec : ∀ c, ((deliver msg (targets sc.order s.b.users msg) s.h).1 c).received
        = (s.h c).received ++ List.replicate ((s.b.users.map Prod.snd).count c) msg := by
      intro c
      rw [h2 c, ← hcnt c, ← h1]
    have h3 : ∀ c, ((deliver msg (targets sc.order s.b.users msg) s.h).1 c).room
        + (s.b.users.map Prod.snd).count c = (s.h c).room := by
      intro c
      have := h3 c
      rw [← h1, hcnt c] at this
      exact this
    obtain ⟨k1, k2, k3, _⟩ := broadcast_counts s.b.users msg (fun c => (s.h c).received)
      (fun c => ((deliver msg (targets sc.order s.b.users msg) s.h).1 c).received) hrec
    refine ⟨by simp, trivial, hrec, k1, k2, k3, ?_⟩
    intro c hc
    have h0 : (s.b.users.map Prod.snd).count c = 0 := List.count_eq_zero_of_not_mem hc
    apply mailbox_eq
    · rw [hrec c, h0]; simp
    · have := h3 c
      rw [h0] at this
      simpa using this
  · intro evs heq
    rcases (hD evs).2 heq with hprog | ⟨hp, hfull⟩
    · exact Or.inl hprog
    · obtain ⟨k1, k2, k3, k4⟩ := broadcast_counts s.b.users msg (fun c => (s.h c).received)
        (fun c => ((exec (runIter sc s) evs).h c).received) hfull
      exact Or.inr ⟨hp, hfull, k1, k2, k3, k4⟩
  · intro evs rest heq hp
    refine ⟨?_, ?_⟩
    · intro hroom sc2
      have hserve : runIter sc2 (exec (runIter sc s) evs)
          = serve (exec (runIter sc s) evs) msg rest true :=
        runIter_sending sc2 _ msg rest true hp
      have hdone := deliver_complete msg rest (exec (runIter sc s) evs).h hroom
      have hpc2 : (runIter sc2 (exec (runIter sc s) evs)).pc = .selecting := by
        rw [hserve]
        simp [serve, hdone]
      have hD2 := dispatching_step _ _ msg _ _ (.iterate sc2) (hD evs)
      have htk : (step (exec (runIter sc s) evs) (.iterate sc2)).taken = s.taken + 1 := by
        show (runIter sc2 (exec (runIter sc s) evs)).taken = s.taken + 1
        rw [hserve]
        exact heq
      refine ⟨hpc2, ?_⟩
      rcases hD2.2 htk with ⟨r, _, hp3, _⟩ | ⟨_, hfull⟩
      · have hp4 : (runIter sc2 (exec (runIter sc s) evs)).pc = .sending msg r true := hp3
        rw [hpc2] at hp4
        exact RunPc.noConfusion hp4
      · exact hfull
    · intro c rest2 hr hroom sc2
      rw [hr] at hp
      exact runIter_parked sc2 _ msg c rest2 true hp hroom
  · intro u sc2 evs hu heq
    have hr : runIter sc2 u = routeMsg sc2.order u msg := by
      unfold runIter
      rw [hu]
    rw [hr] at heq ⊢
    exact (dispatching_exec _ _ msg _ _ evs (dispatching_route sc2.order u msg hb)).2 heq

/-- C2 at the scenario of the specification, alice and bob registered with
distinct mailboxes: with room in both, both receive the broadcast once, in the
turn that takes it; with no room in bob's mailbox `Run` is parked in the send
to bob, and once a consumer has made room the next turn ends the dispatch, each
of the two having received the broadcast once. -/
theorem broadcast_routing_witness :
    (((runIter ⟨false, [0, 1]⟩ broadcastSys).h 0).received
        = [⟨"alice", "", "hello all", true, 8⟩] ∧
      ((runIter ⟨false, [0, 1]⟩ broadcastSys).h 1).received
        = [⟨"alice", "", "hello all", true, 8⟩]) ∧
    ((runIter ⟨false, [0, 1]⟩ narrowSys).pc
        = .sending ⟨"alice", "", "hello all", true, 8⟩ [1] true ∧
      (exec (runIter ⟨false, [0, 1]⟩ narrowSys) [.consume 1, .iterate ⟨false, []⟩]).pc
        = .selecting ∧
      ((exec (runIter ⟨false, [0, 1]⟩ narrowSys) [.consume 1, .iterate ⟨false, []⟩]).h 0).received
        = [⟨"alice", "", "hello all", true, 8⟩] ∧
      ((exec (runIter ⟨false, [0, 1]⟩ narrowSys) [.consume 1, .iterate ⟨false, []⟩]).h 1).received
        = [⟨"alice", "", "hello all", true, 8⟩]) := by
  have hu : broadcastSys.b.users = [("bob", 1), ("alice", 0)] := by decide
  have hr : ∀ c, (broadcastSys.h c).room = 1 := fun _ => rfl
  have hroom : ∀ c, (broadcastSys.b.users.map Prod.snd).count c ≤ (broadcastSys.h c).room := by
    intro c
    rw [hu, hr c]
    exact List.nodup_iff_count_le_one.mp (by decide) c
  have h := (broadcast_routing broadcastSys ⟨"alice", "", "hello all", true, 8⟩ []
    ⟨false, [0, 1]⟩ rfl rfl (Or.inl rfl) rfl).1 hroom
  have hn := (broadcast_routing narrowSys ⟨"alice", "", "hello all", true, 8⟩ []
    ⟨false, [0, 1]⟩ rfl rfl (Or.inl rfl) rfl).2.1 [.consume 1, .iterate ⟨false, []⟩]
    (by decide)
  have hpc : (exec (runIter ⟨false, [0, 1]⟩ narrowSys) [.consume 1, .iterate ⟨false, []⟩]).pc
      = .selecting := by decide
  refine ⟨⟨h.2.2.2.1 0 (by decide), h.2.2.2.1 1 (by decide)⟩, by decide, hpc, ?_, ?_⟩
  · rcases hn with ⟨rest, _, hp, _⟩ | ⟨_, _, h1, _⟩
    · rw [hpc] at hp; exact RunPc.noConfusion hp
    · exact h1 0 (by decide)
  · rcases hn with ⟨rest, _, hp, _⟩ | ⟨_, _, h1, _⟩
    · rw [hpc] at hp; exact RunPc.noConfusion hp
    · exact h1 1 (by decide)

/-- C2 as stated fails: the mailbox that alice and bob share receives one
broadcast twice. -/
theorem broadcast_twice_on_shared_mailbox :
    mapGet aliasSys.b.users "alice" = some 0 ∧ mapGet aliasSys.b.users "bob" = some 0 ∧
    ((runIter ⟨false, []⟩ aliasSys).h 0).received
      = [⟨"alice", "", "hello all", true, 8⟩, ⟨"alice", "", "hello all", true, 8⟩] := by
  decide

/-! ## Claims about `SendMessage` -/

/-- C3: `SendMessage` never drops a message silently.  For every broker state,
message and scheduling, the call ends in one of two ways: it returns nil and the
queue is the old queue with the message added at its tail, or it returns the
error "broker shut down" and the queue is unchanged.  It returns nil only with
the message enqueued.  It returns whenever the context is cancelled (before or
during the call) or the queue has a free slot; otherwise, the queue being full
and the context live, it is blocked in its second `select`, nothing returned
and nothing changed.  The same holds of the second `select` fired in whatever
state the broker has reached by then. -/
theorem send_never_drops (sc : SendSched) (b : Broker) (msg : Message) :
    ((∃ b1, SendMessage sc b msg = .returned .nil b1 ∧ b1.input = b.input ++ [msg]) ∨
     (∃ b1, SendMessage sc b msg = .returned (.new "broker shut down") b1 ∧
        b1.input = b.input) ∨
     (SendMessage sc b msg = .blocked ∧ b.ctxDone = false ∧ sc.cancelMidCall = false ∧
        inputCap ≤ b.input.length)) ∧
    (∀ b1, SendMessage sc b msg = .returned .nil b1 → b1.input = b.input ++ [msg]) ∧
    (∀ e b1, SendMessage sc b msg = .returned e b1 →
        e = .nil ∨ (e = .new "broker shut down" ∧ b1.input = b.input)) ∧
    (b.ctxDone = true ∨ sc.cancelMidCall = true ∨ b.input.length < inputCap →
        SendMessage sc b msg ≠ .blocked) ∧
    (sendSelect sc.takeSend b msg = .returned .nil { b with input := b.input ++ [msg] } ∨
     sendSelect sc.takeSend b msg = .returned (.new "broker shut down") b ∨
     (sendSelect sc.takeSend b msg = .blocked ∧ b.ctxDone = false ∧
        inputCap ≤ b.input.length)) := by
  obtain ⟨mid, pick⟩ := sc
  cases hctx : b.ctxDone <;> cases mid <;> cases pick <;>
    by_cases hq : b.input.length < inputCap <;>
    simp [SendMessage, sendSelect, hctx, hq] <;> omega

/-- C4: shutdown is terminal for producers.  In every broker state whose
context is cancelled, whatever the queue holds, `SendMessage` returns the error
"broker shut down" and leaves the broker, its queue included, as it was; and
the context stays cancelled through every later step of the system, so the same
holds for every later call. -/
theorem shutdown_terminal (sc : SendSched) (s : Sys) (msg : Message)
    (hctx : s.b.ctxDone = true) :
    SendMessage sc s.b msg = .returned (.new "broker shut down") s.b ∧
    (∀ evs, SendMessage sc (exec s evs).b msg
        = .returned (.new "broker shut down") (exec s evs).b) := by
  have key : ∀ b : Broker, b.ctxDone = true →
      SendMessage sc b msg = .returned (.new "broker shut down") b := by
    intro b hb
    simp [SendMessage, hb]
  exact ⟨key s.b hctx, fun evs => key _ (exec_ctxDone s evs hctx)⟩

/-- C4 at a cancelled broker whose queue has free slots. -/
theorem shutdown_terminal_witness :
    cancelledSys.b.input.length < inputCap ∧
    SendMessage ⟨false, true⟩ cancelledSys.b ⟨"alice", "bob", "again", false, 11⟩
      = .returned (.new "broker shut down") cancelledSys.b :=
  ⟨by decide, (shutdown_terminal ⟨false, true⟩ cancelledSys
    ⟨"alice", "bob", "again", false, 11⟩ rfl).1⟩

/-- C5: silent discard of an unroutable unicast.  For a message with
`Broadcast = false`: `SendMessage` returns nil, the message enqueued, when the
context is not cancelled and the queue is not full; and the iteration of `Run`
that takes the message while its `Recipient` is not registered ends back at the
`select`, without panic, with every mailbox and every delivery log as it was.
After `UnregisterUser` the id is not registered. -/
theorem unroutable_unicast_discarded (sc : SendSched) (b : Broker) (msg : Message)
    (hb : msg.Broadcast = false) (hctx : b.ctxDone = false)
    (hsc : sc.cancelMidCall = false) (hq : b.input.length < inputCap) :
    SendMessage sc b msg = .returned .nil { b with input := b.input ++ [msg] } ∧
    (∀ (t : Sys) (queue : List Message) (rs : RunSched),
      t.pc = .selecting → t.b.input = msg :: queue →
      (t.b.ctxDone = false ∨ rs.takeCtx = false) →
      mapGet t.b.users msg.Recipient = none →
        (runIter rs t).h = t.h ∧ (runIter rs t).log = t.log ∧
        (runIter rs t).pc = .selecting ∧ (runIter rs t).b.input = queue) ∧
    (∀ b0 : Broker, mapGet (UnregisterUser b0 msg.Recipient).users msg.Recipient = none) := by
  refine ⟨?_, ?_, ?_⟩
  · obtain ⟨mid, pick⟩ := sc
    simp only at hsc
    subst hsc
    simp [SendMessage, sendSelect, hctx, hq]
  · intro t queue rs hpc hin hsel hreg
    rw [runIter_recv rs t msg queue hpc hin hsel]
    simp [recvInput, routeMsg, takeInput, serve, targets_unicast rs.order t.b.users msg hb,
      hreg, deliver, logSends]
  · intro b0
    exact mapGet_mapDelete_self b0.users msg.Recipient

/-- C5 at the scenario of the specification: bob is not registered, the send
succeeds, and the dispatch leaves alice's mailbox empty. -/
theorem unroutable_unicast_discarded_witness :
    SendMessage ⟨false, true⟩ (UnregisterUser unicastSys.b "bob")
        ⟨"alice", "bob", "hi", false, 7⟩
      = .returned .nil { UnregisterUser unicastSys.b "bob" with
          input := (UnregisterUser unicastSys.b "bob").input
            ++ [⟨"alice", "bob", "hi", false, 7⟩] } ∧
    (runIter ⟨false, []⟩ unroutableSys).h = unroutableSys.h :=
  have h := unroutable_unicast_discarded ⟨false, true⟩ (UnregisterUser unicastSys.b "bob")
    ⟨"alice", "bob", "hi", false, 7⟩ rfl rfl rfl (by decide)
  ⟨h.1, (h.2.1 unroutableSys [] ⟨false, []⟩ rfl rfl (Or.inl rfl) (by decide)).1⟩

/-! ## Claims about the registry -/

theorem mapGet_mapSet_self (users : List (String × Nat)) (id : String) (c : Nat) :
    mapGet (mapSet users id c) id = some c := by
  simp [mapGet, mapSet]

theorem mapGet_mapDelete_ne (users : List (String × Nat)) (id k : String) (h : id ≠ k) :
    mapGet (mapDelete users k) id = mapGet users id := by
  induction users with
  | nil => rfl
  | cons e es ih =>
    obtain ⟨k1, v⟩ := e
    unfold mapGet mapDelete at ih ⊢
    by_cases hk : k1 = k
    · subst hk
      have h3 : (id == k1) = false := by simpa using h
      rw [List.lookup_cons]
      simp only [h3]
      simpa [List.filter_cons] using ih
    · simp only [List.filter_cons, bne_iff_ne, ne_eq, hk, not_false_eq_true, decide_True,
        if_true]
      rw [List.lookup_cons, List.lookup_cons]
      cases hid : (id == k1)
      · simpa [List.filter_cons] using ih
      · rfl

theorem mapGet_mapSet_ne (users : List (String × Nat)) (id k : String) (c : Nat)
    (h : id ≠ k) : mapGet (mapSet users k c) id = mapGet users id := by
  have h3 : (id == k) = false := by simpa using h
  have := mapGet_mapDelete_ne users id k h
  unfold mapGet at this ⊢
  unfold mapSet
  rw [List.lookup_cons]
  simp only [h3]
  exact this

theorem mapDelete_absent (users : List (String × Nat)) (id : String)
    (h : mapGet users id = none) : mapDelete users id = users := by
  induction users with
  | nil => rfl
  | cons e es ih =>
    obtain ⟨k, v⟩ := e
    unfold mapGet at h ih
    rw [List.lookup_cons] at h
    cases hid : (id == k)
    · simp only [hid] at h
      have hne : ¬ (k = id) := by
        intro e; subst e; simp at hid
      unfold mapDelete at ih ⊢
      simp only [List.filter_cons, bne_iff_ne, ne_eq, hne, not_false_eq_true, decide_True,
        if_true]
      rw [ih h]
    · simp [hid] at h

theorem uniqueKeys_mapDelete (users : List (String × Nat)) (id : String)
    (h : UniqueKeys users) : UniqueKeys (mapDelete users id) := by
  unfold UniqueKeys mapDelete at *
  exact h.sublist ((List.filter_sublist users).map Prod.fst)

theorem uniqueKeys_mapSet (users : List (String × Nat)) (id : String) (c : Nat)
    (h : UniqueKeys users) : UniqueKeys (mapSet users id c) := by
  have hd := uniqueKeys_mapDelete users id h
  unfold UniqueKeys mapSet at *
  rw [List.map_cons, List.nodup_cons]
  refine ⟨?_, hd⟩
  intro hmem
  obtain ⟨e, he, hid⟩ := List.mem_map.mp hmem
  unfold mapDelete at he
  have := (List.mem_filter.mp he).2
  simp [hid] at this

theorem uniqueKeys_applyOps (b : Broker) (ops : List RegOp) (h : UniqueKeys b.users) :
    UniqueKeys (applyOps b ops).users := by
  induction ops generalizing b with
  | nil => exact h
  | cons op ops ih =>
    apply ih
    cases op with
    | register k c => exact uniqueKeys_mapSet _ _ _ h
    | unregister k => exact uniqueKeys_mapDelete _ _ h

theorem applyOps_snoc (b : Broker) (ops : List RegOp) (op : RegOp) :
    applyOps b (ops ++ [op]) = applyOp (applyOps b ops) op := by
  simp [applyOps]

theorem lastOpOn_snoc_same (id : String) (ops : List RegOp) (op : RegOp)
    (h : op.userID = id) : lastOpOn id (ops ++ [op]) = some op := by
  simp [lastOpOn, List.filter_cons, h, List.getLast?_concat]

theorem lastOpOn_snoc_other (id : String) (ops : List RegOp) (op : RegOp)
    (h : op.userID ≠ id) : lastOpOn id (ops ++ [op]) = lastOpOn id ops := by
  simp [lastOpOn, List.filter_cons, h]

/-- The lookup after a sequence of registry calls, from any broker. -/
theorem mapGet_applyOps (b : Broker) (ops : List RegOp) (id : String) :
    mapGet (applyOps b ops).users id =
      match lastOpOn id ops with
      | some (.register _ c) => some c
      | some (.unregister _) => none
      | none => mapGet b.users id := by
  induction ops using List.reverseRecOn with
  | nil => simp [applyOps, lastOpOn]
  | append_singleton ops op ih =>
    rw [applyOps_snoc]
    by_cases h : op.userID = id
    · rw [lastOpOn_snoc_same id ops op h]
      cases op with
      | register k c =>
        simp only [RegOp.userID] at h
        subst h
        exact mapGet_mapSet_self _ _ _
      | unregister k =>
        simp only [RegOp.userID] at h
        subst h
        exact mapGet_mapDelete_self _ _
    · rw [lastOpOn_snoc_other id ops op h, ← ih]
      have h2 : id ≠ op.userID := fun e => h e.symm
      cases op with
      | register k c => exact mapGet_mapSet_ne _ _ _ _ h2
      | unregister k => exact mapGet_mapDelete_ne _ _ _ h2

/-- C6: net effect of the registry calls.  After any finite sequence of
`RegisterUser` and `UnregisterUser` calls on a new broker, the lookup of an id
yields the mailbox of the last operation on that id when that operation is a
`RegisterUser`, and nothing when it is an `UnregisterUser` or when no operation
is about the id.  `RegisterUser` replaces what the id was mapped to, and
`UnregisterUser` of an id that is not registered leaves the broker as it
was.  The registry holds one entry per id at most. -/
theorem registry_net_effect (ctxDone : Bool) (ops : List RegOp) (id : String) :
    (∀ k c, lastOpOn id ops = some (.register k c) →
      mapGet (applyOps (NewBroker ctxDone) ops).users id = some c) ∧
    (∀ k, lastOpOn id ops = some (.unregister k) →
      mapGet (applyOps (NewBroker ctxDone) ops).users id = none) ∧
    (lastOpOn id ops = none →
      mapGet (applyOps (NewBroker ctxDone) ops).users id = none) ∧
    (∀ (b : Broker) (c : Nat), mapGet (RegisterUser b id c).users id = some c) ∧
    (∀ b : Broker, mapGet b.users id = none → UnregisterUser b id = b) ∧
    UniqueKeys (applyOps (NewBroker ctxDone) ops).users := by
  have key := mapGet_applyOps (NewBroker ctxDone) ops id
  refine ⟨?_, ?_, ?_, ?_, ?_,
    uniqueKeys_applyOps (NewBroker ctxDone) ops (by simp [UniqueKeys, NewBroker])⟩
  · intro k c h
    rw [key, h]
  · intro k h
    rw [key, h]
  · intro h
    rw [key, h]
    rfl
  · intro b c
    exact mapGet_mapSet_self _ _ _
  · intro b h
    cases b
    simp only [UnregisterUser] at h ⊢
    rw [mapDelete_absent _ _ h]

/-! ## Claims about shutdown -/

theorem exitRun_open (s : Sys) (hdone : s.b.done = false) :
    exitRun s = { s with b := { s.b with done := true }, pc := .returned,
                         closes := s.closes + 1 } := by
  simp [exitRun, hdone]

theorem runIter_returned (sc : RunSched) (s : Sys) (hpc : s.pc = .returned) :
    runIter sc s = s := by
  unfold runIter
  rw [hpc]

theorem Run_returned (picks : List RunSched) (s : Sys) (hpc : s.pc = .returned) :
    Run picks s = s := by
  induction picks with
  | nil => rfl
  | cons p ps ih =>
    simp only [Run, List.foldl_cons] at ih ⊢
    rw [runIter_returned p s hpc]
    exact ih

theorem Run_cons (p : RunSched) (picks : List RunSched) (s : Sys) :
    Run (p :: picks) s = Run picks (runIter p s) := rfl

theorem Run_parked (picks : List RunSched) (s : Sys) (msg : Message) (c : Nat)
    (rest : List Nat) (locked : Bool)
    (hpc : s.pc = .sending msg (c :: rest) locked) (hroom : (s.h c).room = 0) :
    Run picks s = s := by
  induction picks with
  | nil => rfl
  | cons p ps ih =>
    rw [Run_cons, runIter_parked p s msg c rest locked hpc hroom]
    exact ih

/-- Once `Run` has returned, no step of the system moves the goroutine, closes
`done`, takes a message from the queue or sends on a mailbox; the queue keeps
the entries it holds. -/
theorem step_after_return (s : Sys) (e : Event) (hpc : s.pc = .returned) :
    (step s e).pc = .returned ∧
    (step s e).closes = s.closes ∧ (step s e).b.done = s.b.done ∧
    (step s e).taken = s.taken ∧
    (∃ more, (step s e).b.input = s.b.input ++ more) ∧
    (∀ c, ((step s e).h c).received = (s.h c).received) := by
  have hsame : ∀ t : Sys, t.pc = s.pc → t.closes = s.closes → t.b.done = s.b.done →
      t.taken = s.taken → t.b.input = s.b.input → t.h = s.h →
      t.pc = .returned ∧ t.closes = s.closes ∧ t.b.done = s.b.done ∧
      t.taken = s.taken ∧ (∃ more, t.b.input = s.b.input ++ more) ∧
      (∀ c, (t.h c).received = (s.h c).received) := by
    intro t h1 h2 h3 h4 h5 h6
    exact ⟨h1.trans hpc, h2, h3, h4, ⟨[], by simp [h5]⟩, fun c => by rw [h6]⟩
  have hself := hsame s rfl rfl rfl rfl rfl rfl
  cases e with
  | register id c =>
    simp only [step]
    split
    · exact hself
    · exact hsame _ rfl rfl rfl rfl rfl rfl
  | unregister id =>
    simp only [step]
    split
    · exact hself
    · exact hsame _ rfl rfl rfl rfl rfl rfl
  | sendEnter msg =>
    simp only [step]
    split
    · exact hself
    · exact hsame _ rfl rfl rfl rfl rfl rfl
  | sendFire i t =>
    simp only [step]
    split
    · exact hself
    · rename_i msg _
      split
      · rename_i b1 heq
        obtain ⟨_, _, h3, h4, _⟩ := sendSelect_facts t s.b msg _ b1 heq
        exact ⟨hpc, rfl, h3, rfl, ⟨[msg], h4 rfl⟩, fun _ => rfl⟩
      · rename_i text b1 heq
        obtain ⟨_, _, _, _, h5⟩ := sendSelect_facts t s.b msg _ b1 heq
        have hb := (h5 text rfl).1
        exact hsame _ rfl rfl (by rw [hb]) rfl (by rw [hb]) rfl
      · exact hself
  | cancel => exact hsame _ rfl rfl rfl rfl rfl rfl
  | take =>
    simp only [step]
    split
    · rename_i h1 _
      rw [hpc] at h1
      exact RunPc.noConfusion h1
    · exact hself
  | iterate t =>
    simp only [step]
    rw [runIter_returned t s hpc]
    exact hself
  | consume c =>
    refine ⟨hpc, rfl, rfl, rfl, ⟨[], by simp [step]⟩, ?_⟩
    intro c1
    simp only [step]
    by_cases h : c1 = c
    · subst h; simp
    · simp [Function.update_noteq h]

theorem exec_after_return (s : Sys) (evs : List Event) (hpc : s.pc = .returned) :
    (exec s evs).pc = .returned ∧
    (exec s evs).closes = s.closes ∧ (exec s evs).b.done = s.b.done ∧
    (exec s evs).taken = s.taken ∧
    (∃ more, (exec s evs).b.input = s.b.input ++ more) ∧
    (∀ c, ((exec s evs).h c).received = (s.h c).received) := by
  induction evs generalizing s with
  | nil => exact ⟨hpc, rfl, rfl, rfl, ⟨[], by simp [exec]⟩, fun _ => rfl⟩
  | cons e es ih =>
    obtain ⟨h1, h3, h4, h5, ⟨m1, h6⟩, h7⟩ := step_after_return s e hpc
    obtain ⟨g1, g2, g3, g4, ⟨m2, g5⟩, g6⟩ := ih (step s e) h1
    refine ⟨g1, g2.trans h3, g3.trans h4, g4.trans h5, ⟨m1 ++ m2, ?_⟩, ?_⟩
    · show (exec (step s e) es).b.input = s.b.input ++ (m1 ++ m2)
      rw [g5, h6, List.append_assoc]
    · intro c; exact (g6 c).trans (h7 c)

theorem serve_pc (s : Sys) (msg : Message) (ts : List Nat) (lk : Bool) :
    (serve s msg ts lk).pc ≠ .returned ∧ (serve s msg ts lk).pc ≠ .panicked ∧
    (serve s msg ts lk).b = s.b ∧ (serve s msg ts lk).closes = s.closes := by
  refine ⟨?_, ?_, rfl, rfl⟩
  · simp only [serve]; split <;> simp
  · simp only [serve]; split <;> simp

theorem doneInv_of_live (s t : Sys) (hD : DoneInv s) (hs : s.pc ≠ .returned)
    (h1 : t.pc ≠ .returned) (h2 : t.pc ≠ .panicked) (h3 : t.b.done = s.b.done)
    (h4 : t.closes = s.closes) : DoneInv t := by
  refine ⟨fun h => absurd h h1, fun _ => ?_, h2⟩
  rw [h3, h4]
  exact hD.2.1 hs

theorem doneInv_of_same (s t : Sys) (hD : DoneInv s)
    (h1 : t.pc = s.pc) (h3 : t.b.done = s.b.done) (h4 : t.closes = s.closes) :
    DoneInv t := by
  unfold DoneInv at *
  rw [h1, h3, h4]
  exact hD

theorem exitRun_doneInv (s : Sys) (hD : DoneInv s) (hs : s.pc ≠ .returned) :
    DoneInv (exitRun s) := by
  obtain ⟨hd, hc⟩ := hD.2.1 hs
  rw [exitRun_open s hd]
  refine ⟨fun _ => ⟨rfl, ?_⟩, fun h => absurd rfl h, ?_⟩
  · show s.closes + 1 = 1
    rw [hc]
  · intro h
    exact RunPc.noConfusion h

theorem runIter_doneInv (sc : RunSched) (s : Sys) (hD : DoneInv s) :
    DoneInv (runIter sc s) := by
  have hserve : ∀ msg ts lk (t : Sys), t.pc ≠ .returned → t.b.done = s.b.done →
      t.closes = s.closes → s.pc ≠ .returned → DoneInv (serve t msg ts lk) := by
    intro msg ts lk t _ h3 h4 hs
    obtain ⟨g1, g2, g3, g4⟩ := serve_pc t msg ts lk
    exact doneInv_of_live s _ hD hs g1 g2 (by rw [g3, h3]) (by rw [g4, h4])
  unfold runIter
  split
  · exact hD
  · exact hD
  · rename_i msg hpc
    have hs : s.pc ≠ .returned := by rw [hpc]; exact fun h => RunPc.noConfusion h
    exact hserve msg _ _ s hs rfl rfl hs
  · rename_i msg ts lk hpc
    have hs : s.pc ≠ .returned := by rw [hpc]; exact fun h => RunPc.noConfusion h
    exact hserve msg _ _ s hs rfl rfl hs
  · rename_i hpc
    have hs : s.pc ≠ .returned := by rw [hpc]; exact fun h => RunPc.noConfusion h
    have hrecv : ∀ msg queue, DoneInv (recvInput sc.order s msg queue) := by
      intro msg queue
      exact hserve msg _ _ (takeInput s msg queue) (fun h => RunPc.noConfusion h) rfl rfl hs
    split
    · exact hD
    · exact exitRun_doneInv s hD hs
    · exact hrecv _ _
    · split
      · exact exitRun_doneInv s hD hs
      · exact hrecv _ _

theorem step_doneInv (s : Sys) (e : Event) (hD : DoneInv s) : DoneInv (step s e) := by
  cases e with
  | register id c =>
    simp only [step]
    split
    · exact hD
    · exact doneInv_of_same s _ hD rfl rfl rfl
  | unregister id =>
    simp only [step]
    split
    · exact hD
    · exact doneInv_of_same s _ hD rfl rfl rfl
  | sendEnter msg =>
    simp only [step]
    split
    · exact hD
    · exact doneInv_of_same s _ hD rfl rfl rfl
  | sendFire i t =>
    simp only [step]
    split
    · exact hD
    · rename_i msg _
      split
      · rename_i b1 heq
        exact doneInv_of_same s _ hD rfl (sendSelect_facts t s.b msg _ b1 heq).2.2.1 rfl
      · rename_i text b1 heq
        exact doneInv_of_same s _ hD rfl (sendSelect_facts t s.b msg _ b1 heq).2.2.1 rfl
      · exact hD
  | cancel => exact doneInv_of_same s _ hD rfl rfl rfl
  | take =>
    simp only [step]
    split
    · rename_i msg queue hpc _
      have hs : s.pc ≠ .returned := by rw [hpc]; exact fun h => RunPc.noConfusion h
      exact doneInv_of_live s _ hD hs (fun h => RunPc.noConfusion h)
        (fun h => RunPc.noConfusion h) rfl rfl
    · exact hD
  | iterate t => exact runIter_doneInv t s hD
  | consume c => exact doneInv_of_same s _ hD rfl rfl rfl

theorem exec_doneInv (s : Sys) (evs : List Event) (hD : DoneInv s) :
    DoneInv (exec s evs) := by
  induction evs generalizing s with
  | nil => exact hD
  | cons e es ih => exact ih (step s e) (step_doneInv s e hD)

theorem init_doneInv (ctxDone : Bool) (caps : Nat → Nat) :
    DoneInv (Sys.init ctxDone caps) := by
  refine ⟨fun h => ?_, fun _ => ⟨rfl, rfl⟩, fun h => ?_⟩
  · exact RunPc.noConfusion h
  · exact RunPc.noConfusion h

/-- C9: shutdown drops the backlog.  When the `select` of an iteration of `Run`
takes the cancellation case, `done` being still open, that iteration closes
`done`, once, and `Run` returns, the queue and the mailboxes being as they
were; and through every later run of the system, whatever the queue still
holds, `Run` stays returned, `done` is not closed again, no message is taken
from the queue, whose entries stay in place, and every mailbox has received
exactly what it had received at that moment.  In every run of a new broker
`done` is open as long as `Run` has not returned, `close(b.done)` is executed
once at most, and `Run` does not panic. -/
theorem shutdown_drops_backlog (s : Sys) (sc : RunSched)
    (hpc : s.pc = .selecting) (hctx : s.b.ctxDone = true)
    (hsel : s.b.input = [] ∨ sc.takeCtx = true) (hdone : s.b.done = false) :
    (runIter sc s).pc = .returned ∧
    (runIter sc s).b.done = true ∧
    (runIter sc s).closes = s.closes + 1 ∧
    (runIter sc s).h = s.h ∧
    (runIter sc s).b.input = s.b.input ∧
    (∀ evs : List Event,
      (exec (runIter sc s) evs).pc = .returned ∧
      (exec (runIter sc s) evs).closes = s.closes + 1 ∧
      (exec (runIter sc s) evs).b.done = true ∧
      (exec (runIter sc s) evs).taken = s.taken ∧
      (∃ more, (exec (runIter sc s) evs).b.input = s.b.input ++ more) ∧
      (∀ c, ((exec (runIter sc s) evs).h c).received = (s.h c).received)) ∧
    (∀ (ctx0 : Bool) (caps : Nat → Nat) (evs : List Event),
      ((exec (Sys.init ctx0 caps) evs).pc ≠ .returned →
        (exec (Sys.init ctx0 caps) evs).b.done = false) ∧
      (exec (Sys.init ctx0 caps) evs).closes ≤ 1 ∧
      (exec (Sys.init ctx0 caps) evs).pc ≠ .panicked) := by
  have he : runIter sc s
      = { s with b := { s.b with done := true }, pc := .returned,
                 closes := s.closes + 1 } := by
    rw [runIter_exit sc s hpc hctx hsel, exitRun_open s hdone]
  refine ⟨by rw [he], by rw [he], by rw [he], by rw [he], by rw [he], ?_, ?_⟩
  · intro evs
    have hr := exec_after_return (runIter sc s) evs (by rw [he])
    rw [he] at hr ⊢
    exact hr
  · intro ctx0 caps evs
    have hD := exec_doneInv (Sys.init ctx0 caps) evs (init_doneInv ctx0 caps)
    refine ⟨fun h => (hD.2.1 h).1, ?_, hD.2.2⟩
    by_cases h : (exec (Sys.init ctx0 caps) evs).pc = .returned
    · rw [(hD.1 h).2]
    · rw [(hD.2.1 h).2]; exact Nat.zero_le _

/-- C9 at a cancelled system whose queue holds two messages: `Run` returns and
the two messages stay in the queue, undelivered, whatever happens next. -/
theorem shutdown_drops_backlog_witness :
    cancelledSys.b.input.length = 2 ∧
    (runIter ⟨true, []⟩ cancelledSys).pc = .returned ∧
    (∀ evs : List Event, ∀ c,
      ((exec (runIter ⟨true, []⟩ cancelledSys) evs).h c).received = []) :=
  have h := shutdown_drops_backlog cancelledSys ⟨true, []⟩ rfl rfl (Or.inr rfl) rfl
  ⟨rfl, h.1, fun evs c => (h.2.2.2.2.2.1 evs).2.2.2.2.2 c⟩

theorem recvInput_complete (ord : List Nat) (s : Sys) (msg : Message) (queue : List Message)
    (hr : (deliver msg (targets ord s.b.users msg) s.h).2 = []) :
    (recvInput ord s msg queue).pc = .selecting ∧
    (recvInput ord s msg queue).b = { s.b with input := queue } ∧
    (recvInput ord s msg queue).closes = s.closes ∧
    (recvInput ord s msg queue).h = (deliver msg (targets ord s.b.users msg) s.h).1 := by
  simp [recvInput, routeMsg, takeInput, serve, hr]

theorem recvInput_stalled (ord : List Nat) (s : Sys) (msg : Message) (queue : List Message) (c : Nat)
    (rest : List Nat) (hr : (deliver msg (targets ord s.b.users msg) s.h).2 = c :: rest) :
    (recvInput ord s msg queue).pc = .sending msg (c :: rest) msg.Broadcast ∧
    (recvInput ord s msg queue).h = (deliver msg (targets ord s.b.users msg) s.h).1 := by
  simp [recvInput, routeMsg, takeInput, serve, hr]

theorem targets_length_le (ord : List Nat) (users : List (String × Nat)) (msg : Message) :
    (targets ord users msg).length ≤ users.length := by
  unfold targets
  split
  · rw [(rangeUsers_perm ord users).length_eq]; simp
  · cases users with
    | nil => simp [mapGet]
    | cons e es =>
      cases mapGet (e :: es) msg.Recipient <;> simp [Option.toList]

/-- After cancellation, with more turns than queued messages, `Run` has either
returned, `done` closed once, or is parked in front of a mailbox without
room. -/
theorem Run_cancelled (picks : List RunSched) (s : Sys)
    (hpc : s.pc = .selecting) (hctx : s.b.ctxDone = true) (hdone : s.b.done = false)
    (hlen : s.b.input.length < picks.length) :
    ((Run picks s).pc = .returned ∧ (Run picks s).b.done = true ∧
      (Run picks s).closes = s.closes + 1) ∨
    (∃ msg c rest locked, (Run picks s).pc = .sending msg (c :: rest) locked ∧
      ((Run picks s).h c).room = 0) := by
  induction picks generalizing s with
  | nil => simp at hlen
  | cons p ps ih =>
    rw [Run_cons]
    have hexit : s.b.input = [] ∨ p.takeCtx = true →
        ((Run ps (runIter p s)).pc = .returned ∧ (Run ps (runIter p s)).b.done = true ∧
          (Run ps (runIter p s)).closes = s.closes + 1) := by
      intro hsel
      have he : runIter p s
          = { s with b := { s.b with done := true }, pc := .returned,
                     closes := s.closes + 1 } := by
        rw [runIter_exit p s hpc hctx hsel, exitRun_open s hdone]
      rw [Run_returned ps _ (by rw [he]), he]
      exact ⟨rfl, rfl, rfl⟩
    cases hq : s.b.input with
    | nil => exact Or.inl (hexit (Or.inl hq))
    | cons msg queue =>
      obtain ⟨t, ord⟩ := p
      cases t with
      | true => exact Or.inl (hexit (Or.inr rfl))
      | false =>
        rw [runIter_recv ⟨false, ord⟩ s msg queue hpc hq (Or.inr rfl)]
        cases hr : (deliver msg (targets ord s.b.users msg) s.h).2 with
        | nil =>
          obtain ⟨h1, h2, h3, _⟩ := recvInput_complete ord s msg queue hr
          have hl : (recvInput ord s msg queue).b.input.length < ps.length := by
            rw [h2]; rw [hq] at hlen; simp at hlen ⊢; omega
          have := ih (recvInput ord s msg queue) h1 (by rw [h2]; exact hctx)
            (by rw [h2]; exact hdone) hl
          rw [h3] at this
          exact this
        | cons c rest =>
          obtain ⟨h1, h2⟩ := recvInput_stalled ord s msg queue c rest hr
          obtain ⟨_, _, _, _, h4⟩ := deliver_spec msg (targets ord s.b.users msg) s.h
          have hroom : ((recvInput ord s msg queue).h c).room = 0 := by
            rw [h2]; exact h4 c rest hr
          rw [Run_parked ps _ msg c rest msg.Broadcast h1 hroom]
          exact Or.inr ⟨msg, c, rest, msg.Broadcast, h1, hroom⟩

/-- After cancellation, with more turns than queued messages and room in every
mailbox for all that may still be sent, `Run` returns. -/
theorem Run_cancelled_room (picks : List RunSched) (s : Sys)
    (hpc : s.pc = .selecting) (hctx : s.b.ctxDone = true) (hdone : s.b.done = false)
    (hlen : s.b.input.length < picks.length)
    (hroom : ∀ c, s.b.input.length * s.b.users.length ≤ (s.h c).room) :
    (Run picks s).pc = .returned := by
  induction picks generalizing s with
  | nil => simp at hlen
  | cons p ps ih =>
    rw [Run_cons]
    have hexit : s.b.input = [] ∨ p.takeCtx = true → (Run ps (runIter p s)).pc = .returned := by
      intro hsel
      have he : runIter p s
          = { s with b := { s.b with done := true }, pc := .returned,
                     closes := s.closes + 1 } := by
        rw [runIter_exit p s hpc hctx hsel, exitRun_open s hdone]
      rw [Run_returned ps _ (by rw [he]), he]
    cases hq : s.b.input with
    | nil => exact hexit (Or.inl hq)
    | cons msg queue =>
      obtain ⟨t, ord⟩ := p
      cases t with
      | true => exact hexit (Or.inr rfl)
      | false =>
        rw [runIter_recv ⟨false, ord⟩ s msg queue hpc hq (Or.inr rfl)]
        have hU := targets_length_le ord s.b.users msg
        have hmul : (queue.length + 1) * s.b.users.length
            = queue.length * s.b.users.length + s.b.users.length := by ring
        have hcount : ∀ c, (targets ord s.b.users msg).count c ≤ s.b.users.length :=
          fun c => le_trans (List.count_le_length c _) hU
        have hr : (deliver msg (targets ord s.b.users msg) s.h).2 = [] := by
          apply deliver_complete
          intro c
          have h1 := hroom c
          rw [hq] at h1
          simp only [List.length_cons] at h1
          have h2 := hcount c
          omega
        obtain ⟨h1, h2, _, h4⟩ := recvInput_complete ord s msg queue hr
        apply ih (recvInput ord s msg queue) h1 (by rw [h2]; exact hctx) (by rw [h2]; exact hdone)
        · rw [h2]; rw [hq] at hlen; simp at hlen ⊢; omega
        · intro c
          obtain ⟨sent, e1, _, e3, _⟩ := deliver_spec msg (targets ord s.b.users msg) s.h
          rw [hr, List.append_nil] at e1
          have h5 := e3 c
          rw [← e1] at h5
          have h6 := hroom c
          rw [hq] at h6
          simp only [List.length_cons] at h6
          have h7 := hcount c
          rw [h2, h4]
          simp only
          omega

/-! ## Runs after cancellation -/

theorem serve_backlog (s : Sys) (msg : Message) (ts : List Nat) (lk : Bool) :
    backlog (serve s msg ts lk) = backlog s := rfl

theorem deliver_rest_le (msg : Message) (ts : List Nat) (h : Chans) :
    (deliver msg ts h).2.length ≤ ts.length := by
  obtain ⟨sent, h1, _⟩ := deliver_spec msg ts h
  have := congrArg List.length h1
  rw [List.length_append] at this
  omega

/-- The rank after the mailbox sends of a turn. -/
theorem runRank_serve (s : Sys) (msg : Message) (ts : List Nat) (lk : Bool) :
    (runRank (serve s msg ts lk)).1 = 2 * backlog s ∧
    (runRank (serve s msg ts lk)).2 ≤ ts.length + 1 ∧
    (ts = [] → (runRank (serve s msg ts lk)).2 = 0) ∧
    (∀ c rest, ts = c :: rest → 0 < (s.h c).room →
      (runRank (serve s msg ts lk)).2 ≤ rest.length + 1) := by
  have hgen : ∀ k, (deliver msg ts s.h).2.length ≤ k →
      (runRank (serve s msg ts lk)).1 = 2 * backlog s ∧
      (runRank (serve s msg ts lk)).2 ≤ k + 1 ∧
      ((deliver msg ts s.h).2 = [] → (runRank (serve s msg ts lk)).2 = 0) := by
    intro k hk
    by_cases hr : (deliver msg ts s.h).2 = []
    · have hp : (serve s msg ts lk).pc = .selecting := by simp [serve, hr]
      unfold runRank
      rw [hp, serve_backlog]
      simp
    · have hp : (serve s msg ts lk).pc = .sending msg (deliver msg ts s.h).2 lk := by
        simp [serve, hr]
      unfold runRank
      rw [hp, serve_backlog]
      exact ⟨rfl, by simp only; omega, fun h => absurd h hr⟩
  obtain ⟨g1, g2, g3⟩ := hgen ts.length (deliver_rest_le msg ts s.h)
  refine ⟨g1, g2, ?_, ?_⟩
  · intro ht
    apply g3
    rw [ht]; rfl
  · intro c rest ht hroom
    have hd : (deliver msg ts s.h).2.length ≤ rest.length := by
      rw [ht]
      simp only [deliver, chanSend_some s.h c msg hroom]
      exact deliver_rest_le msg rest _
    exact (hgen rest.length hd).2.1

theorem runRank_same_pc (t u : Sys) (hpc : u.pc = t.pc) (hb : backlog u ≤ backlog t) :
    (runRank u).1 < (runRank t).1 ∨
    ((runRank u).1 = (runRank t).1 ∧ (runRank u).2 ≤ (runRank t).2) := by
  unfold runRank
  rw [hpc]
  split <;> simp only <;> omega

/-- After cancellation a step of another goroutine adds nothing to the
backlog: a new call of `SendMessage` is turned away, and a call past its first
`select` either puts its message in the queue or gives up. -/
theorem step_frame_backlog (s : Sys) (e : Event) (hctx : s.b.ctxDone = true)
    (hi : ∀ sc, e ≠ .iterate sc) (ht : e ≠ .take) :
    backlog (step s e) ≤ backlog s := by
  cases e with
  | register id c => simp only [step]; split <;> exact Nat.le_refl _
  | unregister id => simp only [step]; split <;> exact Nat.le_refl _
  | sendEnter msg => simp only [step, hctx, if_true]; exact Nat.le_refl _
  | sendFire i t =>
    simp only [step]
    split
    · exact Nat.le_refl _
    · rename_i msg hget
      have hlt : i < s.waiting.length := (List.getElem?_eq_some_iff.mp hget).1
      have hlen := List.length_eraseIdx_of_lt hlt
      split
      · rename_i b1 heq
        have hin := (sendSelect_facts t s.b msg _ b1 heq).2.2.2.1 rfl
        simp only [backlog, hin, hlen, List.length_append, List.length_singleton]
        omega
      · rename_i text b1 heq
        have hb := ((sendSelect_facts t s.b msg _ b1 heq).2.2.2.2 text rfl).1
        simp only [backlog, hb, hlen]
        omega
      · exact Nat.le_refl _
  | cancel => exact Nat.le_refl _
  | take => exact absurd rfl ht
  | iterate sc => exact absurd rfl (hi sc)
  | consume c => exact Nat.le_refl _

/-- After cancellation no step of a run adds to what `Run` has taken and may
still take, nor to the rank. -/
theorem step_cancelled (t : Sys) (e : Event) (hctx : t.b.ctxDone = true) :
    (step t e).taken + backlog (step t e) ≤ t.taken + backlog t ∧
    ((runRank (step t e)).1 < (runRank t).1 ∨
      ((runRank (step t e)).1 = (runRank t).1 ∧ (runRank (step t e)).2 ≤ (runRank t).2)) := by
  have hrecv : ∀ ord msg queue, t.pc = .selecting → t.b.input = msg :: queue →
      (recvInput ord t msg queue).taken + backlog (recvInput ord t msg queue)
        ≤ t.taken + backlog t ∧
      ((runRank (recvInput ord t msg queue)).1 < (runRank t).1 ∨
        ((runRank (recvInput ord t msg queue)).1 = (runRank t).1 ∧
          (runRank (recvInput ord t msg queue)).2 ≤ (runRank t).2)) := by
    intro ord msg queue hpc hin
    have hb : backlog (takeInput t msg queue) + 1 = backlog t := by
      simp only [backlog, takeInput, hin, List.length_cons]
      omega
    have h1 := (runRank_serve (takeInput t msg queue) msg
      (targets ord (takeInput t msg queue).b.users msg) msg.Broadcast).1
    have h2 : (runRank t).1 = 2 * backlog t := by
      unfold runRank; rw [hpc]
    have h3 : backlog (recvInput ord t msg queue) = backlog (takeInput t msg queue) := rfl
    have h4 : (recvInput ord t msg queue).taken = t.taken + 1 := rfl
    refine ⟨by omega, Or.inl ?_⟩
    have h5 : (runRank (recvInput ord t msg queue)).1 = 2 * backlog (takeInput t msg queue) := h1
    omega
  by_cases hi : ∃ sc, e = .iterate sc
  · obtain ⟨sc, rfl⟩ := hi
    show (runIter sc t).taken + backlog (runIter sc t) ≤ t.taken + backlog t ∧
      ((runRank (runIter sc t)).1 < (runRank t).1 ∨
        ((runRank (runIter sc t)).1 = (runRank t).1 ∧
          (runRank (runIter sc t)).2 ≤ (runRank t).2))
    rcases runIter_cases sc t with h | ⟨hpc, h⟩ | ⟨hpc, m, queue, hin, h⟩ | ⟨m, hpc, h⟩ |
      ⟨m, ts, lk, hpc, h⟩
    · rw [h]; exact ⟨Nat.le_refl _, Or.inr ⟨rfl, Nat.le_refl _⟩⟩
    · rw [h]
      have h1 : backlog (exitRun t) = backlog t := by
        unfold exitRun; split <;> rfl
      have h2 : (exitRun t).taken = t.taken := (exitRun_facts t).2.2.1
      have h3 : runRank (exitRun t) = runRank t := by
        have hp : (exitRun t).pc = .returned ∨ (exitRun t).pc = .panicked := by
          unfold exitRun; split
          · exact Or.inr rfl
          · exact Or.inl rfl
        unfold runRank
        rw [hpc, h1]
        rcases hp with hp | hp <;> rw [hp]
      rw [h1, h2, h3]
      exact ⟨Nat.le_refl _, Or.inr ⟨rfl, Nat.le_refl _⟩⟩
    · rw [h]; exact hrecv sc.order m queue hpc hin
    · rw [h]
      have h1 := (runRank_serve t m (targets sc.order t.b.users m) m.Broadcast).1
      have h2 : (runRank t).1 = 2 * backlog t + 1 := by
        unfold runRank; rw [hpc]
      have h3 : backlog (routeMsg sc.order t m) = backlog t := rfl
      have h4 : (routeMsg sc.order t m).taken = t.taken := rfl
      have h5 : (runRank (routeMsg sc.order t m)).1 = 2 * backlog t := h1
      exact ⟨by omega, Or.inl (by omega)⟩
    · rw [h]
      obtain ⟨h1, h2, _, _⟩ := runRank_serve t m ts lk
      have h3 : runRank t = (2 * backlog t, ts.length + 1) := by
        unfold runRank; rw [hpc]
      have h4 : (serve t m ts lk).taken = t.taken := rfl
      rw [serve_backlog, h4, h3]
      exact ⟨Nat.le_refl _, Or.inr ⟨h1, h2⟩⟩
  · by_cases ht : e = .take
    · subst ht
      rcases step_take_cases t with h | ⟨hpc, m, queue, hin, h⟩
      · rw [h]; exact ⟨Nat.le_refl _, Or.inr ⟨rfl, Nat.le_refl _⟩⟩
      · rw [h]
        have hb : backlog (takeInput t m queue) + 1 = backlog t := by
          simp only [backlog, takeInput, hin, List.length_cons]
          omega
        have h1 : (takeInput t m queue).taken = t.taken + 1 := rfl
        have h2 : (runRank t).1 = 2 * backlog t := by
          unfold runRank; rw [hpc]
        have h3 : (runRank (takeInput t m queue)).1 = 2 * backlog (takeInput t m queue) + 1 := rfl
        exact ⟨by omega, Or.inl (by omega)⟩
    · have hne : ∀ sc, e ≠ .iterate sc := fun sc h => hi ⟨sc, h⟩
      obtain ⟨h1, h2, _, _⟩ := step_frame t e hne ht
      have hb := step_frame_backlog t e hctx hne ht
      exact ⟨by omega, runRank_same_pc t _ h1 hb⟩

/-- After cancellation a turn of `Run` that does not find it blocked in a send
either ends `Run`, `done` closed, or lowers the rank. -/
theorem runIter_progress (sc : RunSched) (t : Sys) (hctx : t.b.ctxDone = true)
    (hD : DoneInv t) (hnr : t.pc ≠ .returned) (hnb : ¬ Blocked t) :
    ((runIter sc t).pc = .returned ∧ (runIter sc t).b.done = true) ∨
    (runRank (runIter sc t)).1 < (runRank t).1 ∨
    ((runRank (runIter sc t)).1 = (runRank t).1 ∧
      (runRank (runIter sc t)).2 < (runRank t).2) := by
  have hdone : t.b.done = false := (hD.2.1 hnr).1
  cases hpc : t.pc with
  | returned => exact absurd hpc hnr
  | panicked => exact absurd hpc hD.2.2
  | selecting =>
    by_cases hsel : t.b.input = [] ∨ sc.takeCtx = true
    · left
      rw [runIter_exit sc t hpc hctx hsel, exitRun_open t hdone]
      exact ⟨rfl, rfl⟩
    · right; left
      have h1 : t.b.input ≠ [] := fun h => hsel (Or.inl h)
      have h2 : sc.takeCtx = false := by
        cases h : sc.takeCtx
        · rfl
        · exact absurd (Or.inr h) hsel
      obtain ⟨m, queue, hin⟩ : ∃ m queue, t.b.input = m :: queue := by
        cases hq : t.b.input with
        | nil => exact absurd hq h1
        | cons m queue => exact ⟨m, queue, rfl⟩
      rw [runIter_recv sc t m queue hpc hin (Or.inr h2)]
      have hb : backlog (takeInput t m queue) + 1 = backlog t := by
        simp only [backlog, takeInput, hin, List.length_cons]
        omega
      have h3 : (runRank (recvInput sc.order t m queue)).1
          = 2 * backlog (takeInput t m queue) :=
        (runRank_serve (takeInput t m queue) m
          (targets sc.order (takeInput t m queue).b.users m) m.Broadcast).1
      have h4 : (runRank t).1 = 2 * backlog t := by
        unfold runRank; rw [hpc]
      omega
  | routing m =>
    right; left
    have hr : runIter sc t = routeMsg sc.order t m := by
      unfold runIter; rw [hpc]
    rw [hr]
    have h1 : (runRank (routeMsg sc.order t m)).1 = 2 * backlog t :=
      (runRank_serve t m (targets sc.order t.b.users m) m.Broadcast).1
    have h2 : (runRank t).1 = 2 * backlog t + 1 := by
      unfold runRank; rw [hpc]
    omega
  | sending m ts lk =>
    right; right
    rw [runIter_sending sc t m ts lk hpc]
    obtain ⟨h1, _, h3, h4⟩ := runRank_serve t m ts lk
    have h5 : runRank t = (2 * backlog t, ts.length + 1) := by
      unfold runRank; rw [hpc]
    rw [h5]
    refine ⟨h1, ?_⟩
    cases ts with
    | nil =>
      rw [h3 rfl]
      exact Nat.succ_pos _
    | cons c rest =>
      have hroom : 0 < (t.h c).room := by
        apply Nat.pos_of_ne_zero
        intro h0
        apply hnb
        unfold Blocked
        rw [hpc]
        exact h0
      have := h4 c rest rfl hroom
      simp only [List.length_cons]
      omega

theorem trace_succ (s : Sys) (f : Nat → Event) (n : Nat) :
    trace s f (n + 1) = step (trace s f n) (f n) := rfl

theorem trace_ctxDone (s : Sys) (f : Nat → Event) (hctx : s.b.ctxDone = true) (n : Nat) :
    (trace s f n).b.ctxDone = true := by
  induction n with
  | zero => exact hctx
  | succ n ih => exact step_ctxDone _ _ ih

theorem trace_doneInv (s : Sys) (f : Nat → Event) (hD : DoneInv s) (n : Nat) :
    DoneInv (trace s f n) := by
  induction n with
  | zero => exact hD
  | succ n ih => exact step_doneInv _ _ ih

theorem trace_rank_le (s : Sys) (f : Nat → Event) (hctx : s.b.ctxDone = true) (n k : Nat) :
    (runRank (trace s f (n + k))).1 < (runRank (trace s f n)).1 ∨
    ((runRank (trace s f (n + k))).1 = (runRank (trace s f n)).1 ∧
      (runRank (trace s f (n + k))).2 ≤ (runRank (trace s f n)).2) := by
  induction k with
  | zero => exact Or.inr ⟨rfl, Nat.le_refl _⟩
  | succ k ih =>
    have h := (step_cancelled (trace s f (n + k)) (f (n + k)) (trace_ctxDone s f hctx _)).2
    have e : trace s f (n + (k + 1)) = step (trace s f (n + k)) (f (n + k)) := rfl
    rw [e]
    omega

/-- In an unending run after cancellation either `Run` returns or, from some
step on, every turn of `Run` finds it blocked in a send on a mailbox without
room. -/
theorem trace_returns (s : Sys) (f : Nat → Event) (hctx : s.b.ctxDone = true)
    (hD : DoneInv s) :
    (∃ n, (trace s f n).pc = .returned) ∨
    (∃ N, ∀ n, N ≤ n → ∀ sc, f n = .iterate sc → Blocked (trace s f n)) := by
  have key : ∀ a b n, (runRank (trace s f n)).1 = a → (runRank (trace s f n)).2 = b →
      (∃ n, (trace s f n).pc = .returned) ∨
      (∃ N, ∀ n, N ≤ n → ∀ sc, f n = .iterate sc → Blocked (trace s f n)) := by
    intro a
    induction a using Nat.strong_induction_on with
    | _ a iha =>
      intro b
      induction b using Nat.strong_induction_on with
      | _ b ihb =>
        intro n ha hb
        by_cases hall : ∀ m, n ≤ m → ∀ sc, f m = .iterate sc → Blocked (trace s f m)
        · exact Or.inr ⟨n, hall⟩
        · push_neg at hall
          obtain ⟨m, hnm, sc, hf, hnb⟩ := hall
          obtain ⟨k, rfl⟩ : ∃ k, m = n + k := ⟨m - n, by omega⟩
          have hchain := trace_rank_le s f hctx n k
          by_cases hret : (trace s f (n + k)).pc = .returned
          · exact Or.inl ⟨n + k, hret⟩
          · have hstep : trace s f (n + k + 1) = runIter sc (trace s f (n + k)) := by
              rw [trace_succ, hf]; rfl
            rcases runIter_progress sc (trace s f (n + k)) (trace_ctxDone s f hctx _)
                (trace_doneInv s f hD _) hret hnb with h | h | h
            · exact Or.inl ⟨n + k + 1, by rw [hstep]; exact h.1⟩
            · rw [← hstep] at h
              exact iha _ (by omega) _ (n + k + 1) rfl rfl
            · rw [← hstep] at h
              rcases hchain with hc | hc
              · exact iha _ (by omega) _ (n + k + 1) rfl rfl
              · exact ihb _ (by omega) (n + k + 1) (by omega) rfl
  exact key _ _ 0 rfl rfl

theorem exec_backlog (s : Sys) (evs : List Event) (hctx : s.b.ctxDone = true) :
    (exec s evs).taken + backlog (exec s evs) ≤ s.taken + backlog s := by
  induction evs generalizing s with
  | nil => exact Nat.le_refl _
  | cons e es ih =>
    have h1 := (step_cancelled s e hctx).1
    have h2 := ih (step s e) (step_ctxDone s e hctx)
    exact le_trans h2 h1

theorem trace_after_return (s : Sys) (f : Nat → Event) (n k : Nat)
    (h : (trace s f n).pc = .returned) : (trace s f (n + k)).pc = .returned := by
  induction k with
  | zero => exact h
  | succ k ih => exact (step_after_return _ (f (n + k)) ih).1

/-- C10, as the code has it: `Run` after cancellation.  Take any state in which
the context is cancelled; `DoneInv` holds of it, as it does in every state of
every run of a new broker.

In every unending run from that state, whatever the other goroutines do,
either `Run` returns, `done` closed by one `close`, and stays returned; or from
some step on every turn of `Run` finds it blocked in a send on a mailbox
without room.  A blocked `Run` stays as it is for as long as the mailbox has no
room.

What `Run` still does before it returns is bounded: after cancellation only
the messages queued and those of the calls of `SendMessage` that are past their
first `select` can reach it, so in every run the number of messages taken since
then, with those queued and those calls, never exceeds the count in that
state.  Whenever `Run` is at its `select`, its turn returns, `done` closed, when
the queue is empty or the `select` takes the cancellation case, and takes one
message otherwise.

Executed alone from its `select`, with more turns than there are queued
messages, `Run` has returned, `done` closed once, or is parked in a send on a
mailbox without room, and it has returned when every mailbox has room for all
that may still be sent. -/
theorem run_after_cancellation (s : Sys) (hctx : s.b.ctxDone = true) (hD : DoneInv s) :
    (s.pc = .selecting → ∀ (sc : RunSched) (picks : List RunSched),
      s.b.input = [] ∨ sc.takeCtx = true →
      (Run (sc :: picks) s).pc = .returned ∧
      (Run (sc :: picks) s).b.done = true) ∧
    (∀ f : Nat → Event,
      (∃ n, ∀ m, n ≤ m → (trace s f m).pc = .returned ∧ (trace s f m).b.done = true ∧
        (trace s f m).closes = 1) ∨
      (∃ N, ∀ n, N ≤ n → ∀ sc, f n = .iterate sc → Blocked (trace s f n))) ∧
    (∀ evs : List Event, Blocked (exec s evs) →
      ∀ sc : RunSched, runIter sc (exec s evs) = exec s evs) ∧
    (∀ evs : List Event,
      (exec s evs).taken + (exec s evs).b.input.length + (exec s evs).waiting.length
        ≤ s.taken + s.b.input.length + s.waiting.length) ∧
    (∀ (evs : List Event) (sc : RunSched), (exec s evs).pc = .selecting →
      ((exec s evs).b.input = [] ∨ sc.takeCtx = true →
        (runIter sc (exec s evs)).pc = .returned ∧
        (runIter sc (exec s evs)).b.done = true) ∧
      (∀ msg queue, (exec s evs).b.input = msg :: queue → sc.takeCtx = false →
        (runIter sc (exec s evs)).taken = (exec s evs).taken + 1 ∧
        (runIter sc (exec s evs)).b.input = queue)) ∧
    (s.pc = .selecting → ∀ picks : List RunSched, s.b.input.length < picks.length →
      ((Run picks s).pc = .returned ∧ (Run picks s).b.done = true ∧
        (Run picks s).closes = s.closes + 1) ∨
      (∃ msg c rest locked, (Run picks s).pc = .sending msg (c :: rest) locked ∧
        ((Run picks s).h c).room = 0)) ∧
    (s.pc = .selecting → ∀ picks : List RunSched, s.b.input.length < picks.length →
      (∀ c, s.b.input.length * s.b.users.length ≤ (s.h c).room) →
      (Run picks s).pc = .returned) := by
  have hopen : ∀ t : Sys, DoneInv t → t.pc = .selecting → t.b.done = false := by
    intro t hT hp
    exact (hT.2.1 (by rw [hp]; exact fun h => RunPc.noConfusion h)).1
  have hexit : ∀ (t : Sys) (sc : RunSched), DoneInv t → t.b.ctxDone = true →
      t.pc = .selecting → t.b.input = [] ∨ sc.takeCtx = true →
      runIter sc t = { t with b := { t.b with done := true }, pc := .returned,
                              closes := t.closes + 1 } := by
    intro t sc hT hc hp hsel
    rw [runIter_exit sc t hp hc hsel, exitRun_open t (hopen t hT hp)]
  refine ⟨?_, ?_, ?_, ?_, ?_, ?_, ?_⟩
  · intro hpc sc picks hsel
    have he := hexit s sc hD hctx hpc hsel
    rw [Run_cons, Run_returned picks _ (by rw [he]), he]
    exact ⟨rfl, rfl⟩
  · intro f
    rcases trace_returns s f hctx hD with ⟨n, hn⟩ | hblocked
    · refine Or.inl ⟨n, ?_⟩
      intro m hm
      obtain ⟨k, rfl⟩ : ∃ k, m = n + k := ⟨m - n, by omega⟩
      have hp := trace_after_return s f n k hn
      have hT := trace_doneInv s f hD (n + k)
      exact ⟨hp, (hT.1 hp).1, (hT.1 hp).2⟩
    · exact Or.inr hblocked
  · intro evs hb sc
    unfold Blocked at hb
    split at hb
    · rename_i msg c rest lk hp
      exact runIter_parked sc _ msg c rest lk hp hb
    · exact absurd hb id
  · intro evs
    have := exec_backlog s evs hctx
    simp only [backlog] at this
    omega
  · intro evs sc hp
    have hT := exec_doneInv s evs hD
    have hc := exec_ctxDone s evs hctx
    refine ⟨?_, ?_⟩
    · intro hsel
      rw [hexit _ sc hT hc hp hsel]
      exact ⟨rfl, rfl⟩
    · intro msg queue hin htake
      rw [runIter_recv sc _ msg queue hp hin (Or.inr htake)]
      exact ⟨rfl, rfl⟩
  · intro hpc picks
    exact Run_cancelled picks s hpc hctx (hopen s hD hpc)
  · intro hpc picks
    exact Run_cancelled_room picks s hpc hctx (hopen s hD hpc)

/-- C10 at two cancelled systems.  With two messages queued and room in the
mailboxes, `Run` returns even when its `select` keeps taking messages.  With
the queue empty and a call of `SendMessage` past its first `select`, that call
may still put its message in the queue: the turn of `Run` that takes it ends
back at the `select`, one message taken and no more to come, and the next turn
returns. -/
theorem run_after_cancellation_witness :
    (roomySys.b.ctxDone = true ∧ roomySys.b.input.length = 2 ∧
      (Run [⟨false, []⟩, ⟨false, []⟩, ⟨false, []⟩] roomySys).pc = .returned) ∧
    (lateSenderSys.b.ctxDone = true ∧ lateSenderSys.b.input = [] ∧
      lateSenderSys.waiting.length = 1 ∧
      (exec lateSenderSys [.sendFire 0 true, .iterate ⟨false, []⟩]).pc = .selecting ∧
      (exec lateSenderSys [.sendFire 0 true, .iterate ⟨false, []⟩]).taken
        + (exec lateSenderSys [.sendFire 0 true, .iterate ⟨false, []⟩]).b.input.length
        + (exec lateSenderSys [.sendFire 0 true, .iterate ⟨false, []⟩]).waiting.length ≤ 1 ∧
      (runIter ⟨false, []⟩
        (exec lateSenderSys [.sendFire 0 true, .iterate ⟨false, []⟩])).pc = .returned) := by
  have hi : roomySys.b.input.length * roomySys.b.users.length = 4 := by decide
  have hr : ∀ c, (roomySys.h c).room = 4 := fun _ => rfl
  have h1 := run_after_cancellation roomySys rfl (exec_doneInv _ _ (init_doneInv _ _))
  have h2 := run_after_cancellation lateSenderSys rfl (exec_doneInv _ _ (init_doneInv _ _))
  refine ⟨⟨rfl, rfl, h1.2.2.2.2.2.2 rfl [⟨false, []⟩, ⟨false, []⟩, ⟨false, []⟩]
      (by decide) (fun c => by rw [hi, hr c])⟩,
    rfl, rfl, rfl, by decide, ?_, ?_⟩
  · exact h2.2.2.2.1 [.sendFire 0 true, .iterate ⟨false, []⟩]
  · exact ((h2.2.2.2.2.1 [.sendFire 0 true, .iterate ⟨false, []⟩] ⟨false, []⟩
      (by decide)).1 (Or.inl (by decide))).1

/-- C10 as stated fails: the context is cancelled, the `select` takes the queued
message for bob, nobody reads bob's mailbox, and `Run` never returns, however
many turns it is given; and when the context is cancelled while `Run` is
already parked in that send, `Run` never returns whatever its `select` would
choose. -/
theorem run_never_returns_on_full_mailbox :
    (stalledSys.b.ctxDone = true ∧ stalledSys.pc = .selecting ∧
      ¬ ∃ picks : List RunSched,
        (Run (⟨false, []⟩ :: picks) stalledSys).pc = .returned) ∧
    (parkedSys.b.ctxDone = true ∧
      ¬ ∃ picks : List RunSched, (Run picks parkedSys).pc = .returned) := by
  refine ⟨⟨rfl, rfl, ?_⟩, ⟨rfl, ?_⟩⟩
  · rintro ⟨picks, h⟩
    have hp : (runIter ⟨false, []⟩ stalledSys).pc
        = .sending ⟨"alice", "bob", "hi", false, 7⟩ [1] false := by decide
    have hr : ((runIter ⟨false, []⟩ stalledSys).h 1).room = 0 := by decide
    rw [Run_cons, Run_parked picks _ _ 1 [] false hp hr, hp] at h
    exact RunPc.noConfusion h
  · rintro ⟨picks, h⟩
    have hp : parkedSys.pc = .sending ⟨"alice", "bob", "hi", false, 7⟩ [1] false := by
      decide
    have hr : (parkedSys.h 1).room = 0 := by decide
    rw [Run_parked picks _ _ 1 [] false hp hr, hp] at h
    exact RunPc.noConfusion h

/-! ## Invariants of runs -/

theorem count_le_one_of_nodup_append (sent rest : List Nat) (c : Nat)
    (h : (sent ++ rest).Nodup) : sent.count c ≤ 1 := by
  have := (List.nodup_append.mp h).1
  exact List.nodup_iff_count_le_one.mp this c

theorem count_eq_zero_of_mem_rest (sent rest : List Nat) (c : Nat)
    (h : (sent ++ rest).Nodup) (hc : c ∈ rest) : sent.count c = 0 := by
  have hd := (List.nodup_append.mp h).2.2
  apply List.count_eq_zero_of_not_mem
  intro hs
  exact hd hs hc

theorem serve_inv (s : Sys) (msg : Message) (ts : List Nat) (lk : Bool)
    (hI : Inv { s with pc := .sending msg ts lk }) : Inv (serve s msg ts lk) := by
  obtain ⟨sent, rest, e, hpc, hrec, hlog, hb, hacc, htk, _⟩ := serve_spec s msg ts lk
  obtain ⟨hpos, hcur⟩ := hI.current msg ts lk rfl
  simp only at hpos hcur
  have hq := hI.queue
  have hle := hI.taken_le
  have hlt := hI.log_lt
  have hso := hI.log_sorted
  have hms := hI.log_msgs
  have hup := hI.uni_pending msg ts lk rfl
  have huo := hI.uni_once
  simp only at hq hle hlt hso hms hup huo
  refine ⟨?_, ?_, ?_, ?_, ?_, ?_, ?_, ?_, ?_⟩
  · rw [hb, hacc, htk]; exact hq
  · rw [hacc, htk]; exact hle
  · intro c i hi
    rw [hlog c] at hi
    rw [htk]
    rcases List.mem_append.mp hi with h | h
    · exact hlt c i h
    · have := (List.mem_replicate.mp h).2
      omega
  · intro c
    rw [hlog c, List.pairwise_append]
    refine ⟨hso c, by simp, ?_⟩
    intro a ha b hb2
    have h1 := hlt c a ha
    have h2 := (List.mem_replicate.mp hb2).2
    omega
  · intro c
    rw [hlog c, hrec c, hacc]
    simp only [List.map_append, List.map_replicate]
    rw [hms c, hcur]
  · intro m r l hp
    rw [hpc] at hp
    split at hp
    · exact RunPc.noConfusion hp
    · rw [htk, hacc]
      simp only [RunPc.sending.injEq] at hp
      rw [← hp.1]
      exact ⟨hpos, hcur⟩
  · intro m hp
    rw [hpc] at hp
    split at hp <;> exact RunPc.noConfusion hp
  · intro m r l hp hbm
    rw [hpc] at hp
    split at hp
    · exact RunPc.noConfusion hp
    · simp only [RunPc.sending.injEq] at hp
      obtain ⟨hm, hr, _⟩ := hp
      subst hm hr
      obtain ⟨hnd, hnot⟩ := hup hbm
      rw [e] at hnd
      refine ⟨(List.nodup_append.mp hnd).2.1, ?_⟩
      intro c hc
      rw [hlog c, count_eq_zero_of_mem_rest sent rest c hnd hc, htk]
      simp only [List.replicate_zero, List.append_nil]
      exact hnot c (by rw [e]; exact List.mem_append_right _ hc)
  · intro c i m hi hbm
    rw [hacc] at hi
    rw [hlog c, List.count_append, List.count_replicate]
    have h0 := huo c i m hi hbm
    by_cases hti : s.taken - 1 = i
    · subst hti
      rw [hcur] at hi
      simp only [Option.some.injEq] at hi
      subst hi
      obtain ⟨hnd, hnot⟩ := hup hbm
      rw [e] at hnd
      have hk := count_le_one_of_nodup_append sent rest c hnd
      simp only [beq_self_eq_true, if_true]
      by_cases hk0 : sent.count c = 0
      · omega
      · have hmem : c ∈ sent := List.count_pos_iff.mp (by omega)
        have := hnot c (by rw [e]; exact List.mem_append_left _ hmem)
        rw [List.count_eq_zero_of_not_mem this]
        omega
    · have : (s.taken - 1 == i) = false := by simpa using hti
      simp only [this]
      simpa using h0

/-- The invariant reads only the queue, the history, what the mailboxes have
received and where `Run` stands. -/
theorem inv_transfer (s t : Sys) (hI : Inv s)
    (hin : t.b.input = s.b.input) (hacc : t.accepted = s.accepted)
    (htk : t.taken = s.taken) (hlog : t.log = s.log)
    (hrec : ∀ c, (t.h c).received = (s.h c).received)
    (hpc : t.pc = s.pc ∨ ((∀ m r l, t.pc ≠ .sending m r l) ∧ ∀ m, t.pc ≠ .routing m)) :
    Inv t := by
  refine ⟨?_, ?_, ?_, ?_, ?_, ?_, ?_, ?_, ?_⟩
  · rw [hin, hacc, htk]; exact hI.queue
  · rw [hacc, htk]; exact hI.taken_le
  · rw [hlog, htk]; exact hI.log_lt
  · rw [hlog]; exact hI.log_sorted
  · intro c; rw [hlog, hacc, hrec c]; exact hI.log_msgs c
  · intro m r l hp
    rcases hpc with h | h
    · rw [htk, hacc]; exact hI.current m r l (by rw [← h]; exact hp)
    · exact absurd hp (h.1 m r l)
  · intro m hp
    rcases hpc with h | h
    · rw [htk, hacc, hlog]; exact hI.held m (by rw [← h]; exact hp)
    · exact absurd hp (h.2 m)
  · intro m r l hp hb
    rcases hpc with h | h
    · rw [htk, hlog]; exact hI.uni_pending m r l (by rw [← h]; exact hp) hb
    · exact absurd hp (h.1 m r l)
  · rw [hlog, hacc]; exact hI.uni_once

/-- The invariant survives the acceptance of a message. -/
theorem inv_accept (s t : Sys) (msg : Message) (hI : Inv s)
    (hin : t.b.input = s.b.input ++ [msg]) (hacc : t.accepted = s.accepted ++ [msg])
    (htk : t.taken = s.taken) (hlog : t.log = s.log) (hh : t.h = s.h)
    (hpc : t.pc = s.pc) : Inv t := by
  have hle := hI.taken_le
  have hget : ∀ i, i < s.taken → (s.accepted ++ [msg])[i]? = s.accepted[i]? := by
    intro i hi
    exact List.getElem?_append_left (by omega)
  refine ⟨?_, ?_, ?_, ?_, ?_, ?_, ?_, ?_, ?_⟩
  · rw [hin, hacc, htk, hI.queue, List.drop_append_of_le_length hle]
  · rw [hacc, htk]; simp; omega
  · rw [hlog, htk]; exact hI.log_lt
  · rw [hlog]; exact hI.log_sorted
  · intro c
    rw [hlog, hacc, hh, ← hI.log_msgs c]
    apply List.map_congr_left
    intro i hi
    exact hget i (hI.log_lt c i hi)
  · intro m r l hp
    obtain ⟨h1, h2⟩ := hI.current m r l (by rw [← hpc]; exact hp)
    rw [htk, hacc]
    refine ⟨h1, ?_⟩
    rw [hget _ (by omega)]; exact h2
  · intro m hp
    obtain ⟨h1, h2, h3⟩ := hI.held m (by rw [← hpc]; exact hp)
    rw [htk, hacc, hlog]
    refine ⟨h1, ?_, h3⟩
    rw [hget _ (by omega)]; exact h2
  · intro m r l hp hb
    rw [htk, hlog]
    exact hI.uni_pending m r l (by rw [← hpc]; exact hp) hb
  · intro c i m hi hb
    rw [hacc] at hi
    rw [hlog]
    by_cases hlt : i < s.taken
    · exact hI.uni_once c i m (by rw [← hget i hlt]; exact hi) hb
    · have : i ∉ s.log c := fun h => hlt (hI.log_lt c i h)
      rw [List.count_eq_zero_of_not_mem this]
      omega

theorem drop_cons_facts (l : List Message) (n : Nat) (m : Message) (q : List Message)
    (h : l.drop n = m :: q) : n < l.length ∧ l[n]? = some m ∧ l.drop (n + 1) = q := by
  have h1 : n < l.length := by
    by_contra hc
    have := List.drop_eq_nil_iff.mpr (Nat.le_of_not_lt hc)
    rw [this] at h
    exact List.noConfusion h
  refine ⟨h1, ?_, ?_⟩
  · have := List.getElem?_drop l n 0
    rw [h] at this
    simpa using this.symm
  · rw [← List.tail_drop, h]
    rfl

theorem targets_unicast_nodup (ord : List Nat) (users : List (String × Nat))
    (msg : Message) (hb : msg.Broadcast = false) : (targets ord users msg).Nodup := by
  rw [targets_unicast ord users msg hb]
  cases mapGet users msg.Recipient <;> simp [Option.toList]

/-- The invariant survives the receive of line 44. -/
theorem inv_take (s : Sys) (msg : Message) (queue : List Message) (hI : Inv s)
    (hin : s.b.input = msg :: queue) : Inv (takeInput s msg queue) := by
  have hq := hI.queue
  rw [hin] at hq
  obtain ⟨h1, h2, h3⟩ := drop_cons_facts s.accepted s.taken msg queue hq.symm
  refine ⟨?_, ?_, ?_, ?_, ?_, ?_, ?_, ?_, ?_⟩
  · exact h3.symm
  · exact h1
  · intro c i hi
    have := hI.log_lt c i hi
    show i < s.taken + 1
    omega
  · exact hI.log_sorted
  · exact hI.log_msgs
  · intro m r l hp
    exact RunPc.noConfusion hp
  · intro m hp
    simp only [takeInput, RunPc.routing.injEq] at hp
    refine ⟨Nat.succ_pos _, ?_, ?_⟩
    · show s.accepted[s.taken + 1 - 1]? = some m
      rw [← hp]
      simpa using h2
    · intro c hmem
      have := hI.log_lt c _ hmem
      simp only [takeInput, Nat.add_sub_cancel] at this
      omega
  · intro m r l hp
    exact RunPc.noConfusion hp
  · exact hI.uni_once

/-- The invariant at the moment the registry is read for the message held. -/
theorem inv_route (ord : List Nat) (s : Sys) (msg : Message) (hI : Inv s)
    (hpc : s.pc = .routing msg) :
    Inv { s with pc := .sending msg (targets ord s.b.users msg) msg.Broadcast } := by
  obtain ⟨h1, h2, h3⟩ := hI.held msg hpc
  refine ⟨hI.queue, hI.taken_le, hI.log_lt, hI.log_sorted, hI.log_msgs, ?_, ?_, ?_,
    hI.uni_once⟩
  · intro m r l hp
    simp only [RunPc.sending.injEq] at hp
    rw [← hp.1]
    exact ⟨h1, h2⟩
  · intro m hp
    exact RunPc.noConfusion hp
  · intro m r l hp hb
    simp only [RunPc.sending.injEq] at hp
    obtain ⟨hm, hr, _⟩ := hp
    subst hm hr
    exact ⟨targets_unicast_nodup ord s.b.users msg hb, fun c _ => h3 c⟩

theorem routeMsg_inv (ord : List Nat) (s : Sys) (msg : Message) (hI : Inv s)
    (hpc : s.pc = .routing msg) : Inv (routeMsg ord s msg) :=
  serve_inv s msg _ _ (inv_route ord s msg hI hpc)

theorem recvInput_inv (ord : List Nat) (s : Sys) (msg : Message) (queue : List Message)
    (hI : Inv s) (hin : s.b.input = msg :: queue) : Inv (recvInput ord s msg queue) :=
  routeMsg_inv ord (takeInput s msg queue) msg (inv_take s msg queue hI hin) rfl

theorem runIter_inv (sc : RunSched) (s : Sys) (hI : Inv s) : Inv (runIter sc s) := by
  have hexit : Inv (exitRun s) := by
    obtain ⟨h1, h2, h3, h4, h5, _, h6⟩ := exitRun_facts s
    exact inv_transfer s _ hI h1 h2 h3 h4 (fun c => by rw [h5]) (Or.inr h6)
  unfold runIter
  split
  · exact hI
  · exact hI
  · rename_i msg hpc
    exact routeMsg_inv sc.order s msg hI hpc
  · rename_i msg ts lk hpc
    apply serve_inv
    rw [sys_pc_eta s _ hpc]; exact hI
  · split
    · exact hI
    · exact hexit
    · rename_i msg queue _ hin
      exact recvInput_inv _ s msg queue hI hin
    · rename_i msg queue _ hin
      split
      · exact hexit
      · exact recvInput_inv _ s msg queue hI hin

theorem step_inv (s : Sys) (e : Event) (hI : Inv s) : Inv (step s e) := by
  cases e with
  | register id c =>
    simp only [step]
    split
    · exact hI
    · exact inv_transfer s _ hI rfl rfl rfl rfl (fun _ => rfl) (Or.inl rfl)
  | unregister id =>
    simp only [step]
    split
    · exact hI
    · exact inv_transfer s _ hI rfl rfl rfl rfl (fun _ => rfl) (Or.inl rfl)
  | sendEnter msg =>
    simp only [step]
    split
    · exact hI
    · exact inv_transfer s _ hI rfl rfl rfl rfl (fun _ => rfl) (Or.inl rfl)
  | sendFire i t =>
    simp only [step]
    split
    · exact hI
    · rename_i msg _
      split
      · rename_i b1 heq
        exact inv_accept s _ msg hI ((sendSelect_facts t s.b msg _ b1 heq).2.2.2.1 rfl)
          rfl rfl rfl rfl rfl
      · rename_i text b1 heq
        have hb := ((sendSelect_facts t s.b msg _ b1 heq).2.2.2.2 text rfl).1
        exact inv_transfer s _ hI (by rw [hb]) rfl rfl rfl (fun _ => rfl) (Or.inl rfl)
      · exact hI
  | cancel => exact inv_transfer s _ hI rfl rfl rfl rfl (fun _ => rfl) (Or.inl rfl)
  | take =>
    simp only [step]
    split
    · rename_i msg queue _ hin
      exact inv_take s msg queue hI hin
    · exact hI
  | iterate t => exact runIter_inv t s hI
  | consume c =>
    refine inv_transfer s _ hI rfl rfl rfl rfl ?_ (Or.inl rfl)
    intro c1
    simp only [step]
    by_cases h : c1 = c
    · subst h; simp
    · simp [Function.update_noteq h]

theorem init_inv (ctxDone : Bool) (caps : Nat → Nat) : Inv (Sys.init ctxDone caps) := by
  refine ⟨rfl, Nat.le_refl _, ?_, ?_, ?_, ?_, ?_, ?_, ?_⟩
  · intro c i hi; simp [Sys.init] at hi
  · intro c; simp [Sys.init]
  · intro c; simp [Sys.init]
  · intro m r l hp; simp [Sys.init] at hp
  · intro m hp; simp [Sys.init] at hp
  · intro m r l hp; simp [Sys.init] at hp
  · intro c i m hi; simp [Sys.init] at hi

theorem exec_inv (s : Sys) (evs : List Event) (hI : Inv s) : Inv (exec s evs) := by
  induction evs generalizing s with
  | nil => exact hI
  | cons e es ih => exact ih (step s e) (step_inv s e hI)

theorem serve_invNA (s : Sys) (msg : Message) (ts : List Nat) (lk : Bool)
    (hI : Inv { s with pc := .sending msg ts lk })
    (hN : InvNA { s with pc := .sending msg ts lk }) : InvNA (serve s msg ts lk) := by
  obtain ⟨sent, rest, e, hpc, hrec, hlog, _, hacc, htk, _⟩ := serve_spec s msg ts lk
  obtain ⟨hpos, hcur⟩ := hI.current msg ts lk rfl
  obtain ⟨hnd, hnot, hsubp⟩ := hN.pending msg ts lk rfl
  have hln := hN.log_nodup
  have hsub := hN.sub
  simp only at hpos hcur hnd hnot hsubp hln hsub
  rw [e] at hnd
  have hk : ∀ c, sent.count c = 0 ∨ (sent.count c = 1 ∧ c ∈ sent) := by
    intro c
    have := count_le_one_of_nodup_append sent rest c hnd
    by_cases h0 : sent.count c = 0
    · exact Or.inl h0
    · exact Or.inr ⟨by omega, List.count_pos_iff.mp (by omega)⟩
  have htake : s.accepted.take s.taken = s.accepted.take (s.taken - 1) ++ [msg] := by
    have h1 : s.taken = (s.taken - 1) + 1 := by omega
    conv_lhs => rw [h1]
    rw [List.take_succ, hcur]
    rfl
  refine ⟨?_, ?_, ?_, ?_⟩
  · intro m r l hp
    rw [hpc] at hp
    split at hp
    · exact RunPc.noConfusion hp
    · simp only [RunPc.sending.injEq] at hp
      obtain ⟨_, hr, _⟩ := hp
      subst hr
      refine ⟨(List.nodup_append.mp hnd).2.1, ?_, ?_⟩
      · intro c hc
        rw [hlog c, count_eq_zero_of_mem_rest sent rest c hnd hc, htk]
        simp only [List.replicate_zero, List.append_nil]
        exact hnot c (by rw [e]; exact List.mem_append_right _ hc)
      · intro c hc
        rw [hrec c, count_eq_zero_of_mem_rest sent rest c hnd hc, htk, hacc]
        simp only [List.replicate_zero, List.append_nil]
        exact hsubp c (by rw [e]; exact List.mem_append_right _ hc)
  · intro m hp
    rw [hpc] at hp
    split at hp <;> exact RunPc.noConfusion hp
  · intro c
    rw [hlog c]
    rcases hk c with h0 | ⟨h1, hmem⟩
    · rw [h0]; simpa using hln c
    · rw [h1]
      have hn := hnot c (by rw [e]; exact List.mem_append_left _ hmem)
      rw [List.nodup_append]
      refine ⟨hln c, by simp, ?_⟩
      intro a ha hb
      simp only [List.replicate_one, List.mem_singleton] at hb
      subst hb
      exact hn ha
  · intro c
    rw [hrec c, hacc, htk]
    rcases hk c with h0 | ⟨h1, hmem⟩
    · rw [h0]; simpa using hsub c
    · rw [h1, htake]
      have := hsubp c (by rw [e]; exact List.mem_append_left _ hmem)
      exact List.Sublist.append this (List.Sublist.refl _)

theorem invNA_transfer (s t : Sys) (hN : InvNA s)
    (hacc : t.accepted = s.accepted)
    (htk : t.taken = s.taken) (hlog : t.log = s.log)
    (hrec : ∀ c, (t.h c).received = (s.h c).received)
    (hpc : t.pc = s.pc ∨ ((∀ m r l, t.pc ≠ .sending m r l) ∧ ∀ m, t.pc ≠ .routing m)) :
    InvNA t := by
  refine ⟨?_, ?_, ?_, ?_⟩
  · intro m r l hp
    rcases hpc with h | h
    · obtain ⟨h1, h2, h3⟩ := hN.pending m r l (by rw [← h]; exact hp)
      refine ⟨h1, ?_, ?_⟩
      · rw [htk, hlog]; exact h2
      · intro c hc; rw [hrec c, hacc, htk]; exact h3 c hc
    · exact absurd hp (h.1 m r l)
  · intro m hp
    rcases hpc with h | h
    · intro c; rw [hrec c, hacc, htk]; exact hN.held m (by rw [← h]; exact hp) c
    · exact absurd hp (h.2 m)
  · rw [hlog]; exact hN.log_nodup
  · intro c; rw [hrec c, hacc, htk]; exact hN.sub c

theorem invNA_accept (s t : Sys) (msg : Message) (hI : Inv s) (hN : InvNA s)
    (hacc : t.accepted = s.accepted ++ [msg])
    (htk : t.taken = s.taken) (hlog : t.log = s.log) (hh : t.h = s.h)
    (hpc : t.pc = s.pc) : InvNA t := by
  have hle := hI.taken_le
  have htake : ∀ n, n ≤ s.taken → (s.accepted ++ [msg]).take n = s.accepted.take n := by
    intro n hn
    exact List.take_append_of_le_length (by omega)
  refine ⟨?_, ?_, ?_, ?_⟩
  · intro m r l hp
    obtain ⟨h1, h2, h3⟩ := hN.pending m r l (by rw [← hpc]; exact hp)
    rw [htk, hlog, hacc, hh]
    refine ⟨h1, h2, ?_⟩
    intro c hc
    rw [htake _ (by omega)]
    exact h3 c hc
  · intro m hp c
    rw [htk, hacc, hh, htake _ (by omega)]
    exact hN.held m (by rw [← hpc]; exact hp) c
  · rw [hlog]; exact hN.log_nodup
  · intro c
    rw [htk, hacc, hh, htake _ (Nat.le_refl _)]
    exact hN.sub c

theorem targets_nodup (ord : List Nat) (users : List (String × Nat)) (msg : Message)
    (hna : NoAlias users) : (targets ord users msg).Nodup := by
  cases hb : msg.Broadcast
  · exact targets_unicast_nodup ord users msg hb
  · rw [targets_broadcast ord users msg hb]
    exact (rangeUsers_perm ord users).nodup_iff.mpr hna

theorem invNA_take (s : Sys) (msg : Message) (queue : List Message) (hN : InvNA s) :
    InvNA (takeInput s msg queue) := by
  refine ⟨?_, ?_, ?_, ?_⟩
  · intro m r l hp
    exact RunPc.noConfusion hp
  · intro m _ c
    show ((s.h c).received).Sublist (s.accepted.take (s.taken + 1 - 1))
    simpa using hN.sub c
  · exact hN.log_nodup
  · intro c
    show ((s.h c).received).Sublist (s.accepted.take (s.taken + 1))
    exact (hN.sub c).trans (List.take_sublist_take_left _ (Nat.le_succ _))

theorem invNA_route (ord : List Nat) (s : Sys) (msg : Message) (hI : Inv s) (hN : InvNA s)
    (hpc : s.pc = .routing msg) (hna : NoAlias s.b.users) :
    InvNA { s with pc := .sending msg (targets ord s.b.users msg) msg.Broadcast } := by
  obtain ⟨_, _, h3⟩ := hI.held msg hpc
  refine ⟨?_, ?_, hN.log_nodup, hN.sub⟩
  · intro m r l hp
    simp only [RunPc.sending.injEq] at hp
    obtain ⟨_, hr, _⟩ := hp
    subst hr
    exact ⟨targets_nodup ord s.b.users msg hna, fun c _ => h3 c,
      fun c _ => hN.held msg hpc c⟩
  · intro m hp
    exact RunPc.noConfusion hp

theorem routeMsg_invNA (ord : List Nat) (s : Sys) (msg : Message) (hI : Inv s)
    (hN : InvNA s) (hpc : s.pc = .routing msg) (hna : NoAlias s.b.users) :
    InvNA (routeMsg ord s msg) :=
  serve_invNA s msg _ _ (inv_route ord s msg hI hpc) (invNA_route ord s msg hI hN hpc hna)

theorem recvInput_invNA (ord : List Nat) (s : Sys) (msg : Message) (queue : List Message)
    (hI : Inv s) (hN : InvNA s) (hin : s.b.input = msg :: queue)
    (hna : NoAlias s.b.users) : InvNA (recvInput ord s msg queue) :=
  routeMsg_invNA ord (takeInput s msg queue) msg (inv_take s msg queue hI hin)
    (invNA_take s msg queue hN) rfl hna

theorem runIter_invNA (sc : RunSched) (s : Sys) (hI : Inv s) (hN : InvNA s)
    (hna : NoAlias s.b.users) : InvNA (runIter sc s) := by
  have hexit : InvNA (exitRun s) := by
    obtain ⟨_, h2, h3, h4, h5, _, h6⟩ := exitRun_facts s
    exact invNA_transfer s _ hN h2 h3 h4 (fun c => by rw [h5]) (Or.inr h6)
  unfold runIter
  split
  · exact hN
  · exact hN
  · rename_i msg hpc
    exact routeMsg_invNA sc.order s msg hI hN hpc hna
  · rename_i msg ts lk hpc
    apply serve_invNA
    · rw [sys_pc_eta s _ hpc]; exact hI
    · rw [sys_pc_eta s _ hpc]; exact hN
  · split
    · exact hN
    · exact hexit
    · rename_i msg queue _ hin
      exact recvInput_invNA _ s msg queue hI hN hin hna
    · rename_i msg queue _ hin
      split
      · exact hexit
      · exact recvInput_invNA _ s msg queue hI hN hin hna

theorem step_invNA (s : Sys) (e : Event) (hI : Inv s) (hN : InvNA s)
    (hna : NoAlias s.b.users) : InvNA (step s e) := by
  cases e with
  | register id c =>
    simp only [step]
    split
    · exact hN
    · exact invNA_transfer s _ hN rfl rfl rfl (fun _ => rfl) (Or.inl rfl)
  | unregister id =>
    simp only [step]
    split
    · exact hN
    · exact invNA_transfer s _ hN rfl rfl rfl (fun _ => rfl) (Or.inl rfl)
  | sendEnter msg =>
    simp only [step]
    split
    · exact hN
    · exact invNA_transfer s _ hN rfl rfl rfl (fun _ => rfl) (Or.inl rfl)
  | sendFire i t =>
    simp only [step]
    split
    · exact hN
    · rename_i msg _
      split
      · exact invNA_accept s _ msg hI hN rfl rfl rfl rfl rfl
      · exact invNA_transfer s _ hN rfl rfl rfl (fun _ => rfl) (Or.inl rfl)
      · exact hN
  | cancel => exact invNA_transfer s _ hN rfl rfl rfl (fun _ => rfl) (Or.inl rfl)
  | take =>
    simp only [step]
    split
    · rename_i msg queue _ _
      exact invNA_take s msg queue hN
    · exact hN
  | iterate t => exact runIter_invNA t s hI hN hna
  | consume c =>
    refine invNA_transfer s _ hN rfl rfl rfl ?_ (Or.inl rfl)
    intro c1
    simp only [step]
    by_cases h : c1 = c
    · subst h; simp
    · simp [Function.update_noteq h]

theorem init_invNA (ctxDone : Bool) (caps : Nat → Nat) : InvNA (Sys.init ctxDone caps) := by
  refine ⟨?_, ?_, ?_, ?_⟩
  · intro m r l hp; simp [Sys.init] at hp
  · intro m hp; simp [Sys.init] at hp
  · intro c; simp [Sys.init]
  · intro c; simp [Sys.init]

theorem exec_invNA (s : Sys) (evs : List Event) (hI : Inv s) (hN : InvNA s)
    (hrun : NoAliasRun s evs) : InvNA (exec s evs) := by
  induction evs generalizing s with
  | nil => exact hN
  | cons e es ih =>
    exact ih (step s e) (step_inv s e hI) (step_invNA s e hI hN hrun.1) hrun.2

/-! ## Claims about delivery order and multiplicity -/

/-- C7, as the code has it: FIFO delivery order.  In every run of a new broker
and for every mailbox: the log of the mailbox names, by their positions among
the accepted messages, the messages the mailbox has received, in order of
reception; if the message accepted at position `i` and the message accepted at
a later position `j` are both delivered to the mailbox, every delivery of the
first comes before every delivery of the second; and when no mailbox is
registered under two ids during the run, what the mailbox has received is a
sublist of the sequence of accepted messages. -/
theorem fifo_delivery (ctxDone : Bool) (caps : Nat → Nat) (evs : List Event) (c : Nat) :
    ((exec (Sys.init ctxDone caps) evs).log c).map
        (fun i => (exec (Sys.init ctxDone caps) evs).accepted[i]?)
      = ((exec (Sys.init ctxDone caps) evs).h c).received.map some ∧
    (∀ p q i j : Nat,
      ((exec (Sys.init ctxDone caps) evs).log c)[p]? = some i →
      ((exec (Sys.init ctxDone caps) evs).log c)[q]? = some j →
      i < j → p < q) ∧
    (NoAliasRun (Sys.init ctxDone caps) evs →
      (((exec (Sys.init ctxDone caps) evs).h c).received).Sublist
        (exec (Sys.init ctxDone caps) evs).accepted) := by
  have hI := exec_inv (Sys.init ctxDone caps) evs (init_inv ctxDone caps)
  refine ⟨hI.log_msgs c, ?_, ?_⟩
  · intro p q i j hp hq hij
    by_contra hpq
    have hso := hI.log_sorted c
    rw [List.pairwise_iff_getElem] at hso
    obtain ⟨hp1, hp2⟩ := List.getElem?_eq_some_iff.mp hp
    obtain ⟨hq1, hq2⟩ := List.getElem?_eq_some_iff.mp hq
    rcases Nat.lt_or_ge q p with h | h
    · have := hso q p hq1 hp1 h
      omega
    · have hqp : q = p := by omega
      subst hqp
      omega
  · intro hrun
    have hN := exec_invNA (Sys.init ctxDone caps) evs (init_inv ctxDone caps)
      (init_invNA ctxDone caps) hrun
    exact (hN.sub c).trans (List.take_sublist _ _)

/-- C7 on a run with distinct mailboxes: bob's mailbox receives alice's message
and then the broadcast, a sublist of the three accepted messages. -/
theorem fifo_delivery_witness :
    NoAliasRun (Sys.init false (fun _ => 2)) fifoRun ∧
    ((exec (Sys.init false (fun _ => 2)) fifoRun).h 1).received
      = [⟨"alice", "bob", "hi", false, 7⟩, ⟨"alice", "", "hello all", true, 8⟩] ∧
    (((exec (Sys.init false (fun _ => 2)) fifoRun).h 1).received).Sublist
      (exec (Sys.init false (fun _ => 2)) fifoRun).accepted :=
  ⟨by decide, by decide,
    (fifo_delivery false (fun _ => 2) fifoRun 1).2.2 (by decide)⟩

/-- C7 as stated fails in its second half: on the mailbox that alice and bob
share, the sequence received is not a subsequence of the sequence of accepted
messages. -/
theorem received_not_subsequence_on_shared_mailbox :
    (exec (Sys.init false (fun _ => 4)) sharedTwiceRun).accepted
      = [⟨"alice", "", "hello all", true, 8⟩, ⟨"bob", "", "bye all", true, 9⟩] ∧
    ((exec (Sys.init false (fun _ => 4)) sharedTwiceRun).h 0).received
      = [⟨"alice", "", "hello all", true, 8⟩, ⟨"alice", "", "hello all", true, 8⟩,
         ⟨"bob", "", "bye all", true, 9⟩, ⟨"bob", "", "bye all", true, 9⟩] ∧
    ¬ (((exec (Sys.init false (fun _ => 4)) sharedTwiceRun).h 0).received).Sublist
        (exec (Sys.init false (fun _ => 4)) sharedTwiceRun).accepted := by
  refine ⟨by decide, by decide, ?_⟩
  intro h
  have := h.length_le
  revert this
  decide

/-- C8, as the code has it: at-most-once delivery.  In every run of a new
broker and for every mailbox, the log of the mailbox names the messages it has
received; an accepted message with `Broadcast = false` occurs at most once in
the log; and when no mailbox is registered under two ids during the run, no
accepted message occurs twice in the log. -/
theorem at_most_once (ctxDone : Bool) (caps : Nat → Nat) (evs : List Event) (c : Nat) :
    ((exec (Sys.init ctxDone caps) evs).log c).map
        (fun i => (exec (Sys.init ctxDone caps) evs).accepted[i]?)
      = ((exec (Sys.init ctxDone caps) evs).h c).received.map some ∧
    (∀ i m, (exec (Sys.init ctxDone caps) evs).accepted[i]? = some m →
      m.Broadcast = false →
      ((exec (Sys.init ctxDone caps) evs).log c).count i ≤ 1) ∧
    (NoAliasRun (Sys.init ctxDone caps) evs →
      ((exec (Sys.init ctxDone caps) evs).log c).Nodup) := by
  have hI := exec_inv (Sys.init ctxDone caps) evs (init_inv ctxDone caps)
  refine ⟨hI.log_msgs c, hI.uni_once c, ?_⟩
  intro hrun
  exact (exec_invNA (Sys.init ctxDone caps) evs (init_inv ctxDone caps)
    (init_invNA ctxDone caps) hrun).log_nodup c

/-- C8 on a run with distinct mailboxes: alice's mailbox is sent the second and
the third accepted message, once each. -/
theorem at_most_once_witness :
    NoAliasRun (Sys.init false (fun _ => 2)) fifoRun ∧
    (exec (Sys.init false (fun _ => 2)) fifoRun).log 0 = [1, 2] ∧
    ((exec (Sys.init false (fun _ => 2)) fifoRun).log 0).Nodup :=
  ⟨by decide, by decide, (at_most_once false (fun _ => 2) fifoRun 0).2.2 (by decide)⟩

/-- C8 as stated fails: in a run of a new broker, the one accepted broadcast is
delivered twice to the mailbox that alice and bob share. -/
theorem delivered_twice_on_shared_mailbox :
    (exec (Sys.init false (fun _ => 2)) sharedRun).accepted
      = [⟨"alice", "", "hello all", true, 8⟩] ∧
    (exec (Sys.init false (fun _ => 2)) sharedRun).log 0 = [0, 0] ∧
    ((exec (Sys.init false (fun _ => 2)) sharedRun).h 0).received
      = [⟨"alice", "", "hello all", true, 8⟩, ⟨"alice", "", "hello all", true, 8⟩] := by
  decide

end Chatcore

namespace Lab01

/-! ## Claims about IsValidName -/

theorem utf8Size_ascii (c : Char) (h : c.toNat < 128) : c.utf8Size = 1 := by
  unfold Char.utf8Size
  have : c.val ≤ UInt32.ofNatCore 127 (by decide) := by
    show c.val.toNat ≤ 127
    unfold Char.toNat at h
    omega
  simp only [this, if_true]

theorem utf8Size_pos (c : Char) : 1 ≤ c.utf8Size := by
  rcases Char.utf8Size_eq c with h | h | h | h <;> omega

theorem byteSize_eq (s : String) : s.utf8ByteSize = String.utf8ByteSize.go s.data := by
  cases s; rfl

theorem length_le_go (cs : List Char) : cs.length ≤ String.utf8ByteSize.go cs := by
  induction cs with
  | nil => simp [String.utf8ByteSize.go]
  | cons c cs ih =>
    have := utf8Size_pos c
    simp only [String.utf8ByteSize.go, List.length_cons]
    omega

theorem go_ascii (cs : List Char) (h : ∀ c ∈ cs, c.toNat < 128) :
    String.utf8ByteSize.go cs = cs.length := by
  induction cs with
  | nil => simp [String.utf8ByteSize.go]
  | cons c cs ih =>
    have h1 := utf8Size_ascii c (h c (List.mem_cons_self _ _))
    have h2 := ih (fun d hd => h d (List.mem_cons_of_mem _ hd))
    simp only [String.utf8ByteSize.go, List.length_cons, h1, h2]

theorem length_le_byteSize (s : String) : s.length ≤ s.utf8ByteSize := by
  rw [byteSize_eq]
  exact length_le_go s.data

theorem byteSize_ascii (s : String) (h : ∀ c ∈ s.data, c.toNat < 128) :
    s.utf8ByteSize = s.length := by
  rw [byteSize_eq]
  exact go_ascii s.data h

theorem isValidName_iff (name : String) :
    IsValidName name = true ↔ 1 ≤ name.utf8ByteSize ∧ name.utf8ByteSize ≤ 30 := by
  simp [IsValidName]

/-- C11, on the code: `IsValidName` measures the name in bytes.  A name of 16
Cyrillic letters, 32 bytes long, is refused although it has between 1 and 30
characters.  What holds for every name: `IsValidName` is true exactly when the
name has between 1 and 30 bytes; a name it accepts has between 1 and 30
characters; a name that is empty or longer than 30 characters is refused; and
for a name of ASCII characters it is true exactly when the name has between 1
and 30 characters. -/
theorem isValidName_counts_bytes :
    ("яяяяяяяяяяяяяяяя".length = 16 ∧ "яяяяяяяяяяяяяяяя".utf8ByteSize = 32 ∧
      IsValidName "яяяяяяяяяяяяяяяя" = false) ∧
    (∀ name : String,
      IsValidName name = true ↔ 1 ≤ name.utf8ByteSize ∧ name.utf8ByteSize ≤ 30) ∧
    (∀ name : String, IsValidName name = true → 1 ≤ name.length ∧ name.length ≤ 30) ∧
    (∀ name : String, name.length = 0 ∨ 30 < name.length → IsValidName name = false) ∧
    (∀ name : String, (∀ c ∈ name.data, c.toNat < 128) →
      (IsValidName name = true ↔ 1 ≤ name.length ∧ name.length ≤ 30)) := by
  refine ⟨by decide, isValidName_iff, ?_, ?_, ?_⟩
  · intro name h
    have h1 := (isValidName_iff name).mp h
    have h2 := length_le_byteSize name
    refine ⟨?_, by omega⟩
    by_contra h0
    have hz : name.data = [] := List.length_eq_zero.mp (by
      show name.data.length = 0
      have : name.length = name.data.length := rfl
      omega)
    rw [byteSize_eq, hz] at h1
    simp [String.utf8ByteSize.go] at h1
  · intro name h
    cases hv : IsValidName name
    · rfl
    · have h1 := (isValidName_iff name).mp hv
      have h2 := length_le_byteSize name
      rcases h with h | h
      · have hz : name.data = [] := List.length_eq_zero.mp h
        rw [byteSize_eq, hz] at h1
        simp [String.utf8ByteSize.go] at h1
      · omega
  · intro name hascii
    rw [isValidName_iff, byteSize_ascii name hascii]

/-! ## Claims about NewUser and Validate -/

/-- C12, as the code has it: `NewUser` and `Validate`.  `NewUser` returns the
user that holds the three values, with a nil error, exactly when
`IsValidName`, `IsValidAge` and `IsValidEmail` all hold, `IsValidAge` being
`0 <= age <= 150`; otherwise it returns no user and one error, that of the
first invalid field in the order name, age, email. -/
theorem newUser_first_error (name : String) (age : Int) (email : String) :
    (NewUser name age email = (some { Name := name, Age := age, Email := email }, .nil) ↔
      IsValidName name = true ∧ IsValidAge age = true ∧ IsValidEmail email = true) ∧
    (IsValidAge age = true ↔ 0 ≤ age ∧ age ≤ 150) ∧
    (IsValidName name = false → NewUser name age email = (none, ErrInvalidName)) ∧
    (IsValidName name = true → IsValidAge age = false →
      NewUser name age email = (none, ErrInvalidAge)) ∧
    (IsValidName name = true → IsValidAge age = true → IsValidEmail email = false →
      NewUser name age email = (none, ErrInvalidEmail)) ∧
    ((NewUser name age email).1 = none ↔
      ¬ (IsValidName name = true ∧ IsValidAge age = true ∧ IsValidEmail email = true)) := by
  cases hn : IsValidName name <;> cases ha : IsValidAge age <;>
    cases he : IsValidEmail email <;>
    simp [NewUser, User.Validate, hn, ha, he, ErrInvalidName, ErrInvalidAge, ErrInvalidEmail] <;>
    simp [IsValidAge] at ha ⊢ <;> omega

/-- C12 on valid data and on an invalid age. -/
theorem newUser_first_error_witness :
    NewUser "John Doe" 25 "john@example.com"
      = (some { Name := "John Doe", Age := 25, Email := "john@example.com" }, .nil) ∧
    NewUser "John Doe" 151 "john@example.com" = (none, ErrInvalidAge) :=
  ⟨(newUser_first_error "John Doe" 25 "john@example.com").1.mpr (by decide),
   (newUser_first_error "John Doe" 151 "john@example.com").2.2.2.1 (by decide) (by decide)⟩

/-- C12 as stated fails: with an empty name and the age -1 the age is invalid,
and the error returned is not `ErrInvalidAge`. -/
theorem newUser_reports_one_error :
    IsValidName "" = false ∧ IsValidAge (-1) = false ∧
    NewUser "" (-1) "john@example.com" = (none, ErrInvalidName) ∧
    (NewUser "" (-1) "john@example.com").2 ≠ ErrInvalidAge := by
  decide


/-! ## The matcher and the strings of an expression -/

theorem nullable_iff (r : Regex) : r.nullable = true ↔ r.Lang [] := by
  induction r with
  | fail => simp [Regex.nullable, Regex.Lang]
  | eps => simp [Regex.nullable, Regex.Lang]
  | cls p => simp [Regex.nullable, Regex.Lang]
  | cat r t ihr iht =>
    simp only [Regex.nullable, Regex.Lang, Bool.and_eq_true, ihr, iht]
    constructor
    · intro h
      exact ⟨[], [], rfl, h.1, h.2⟩
    · rintro ⟨a, b, hab, ha, hb⟩
      have h1 := List.append_eq_nil.mp hab.symm
      rw [h1.1] at ha
      rw [h1.2] at hb
      exact ⟨ha, hb⟩
  | alt r t ihr iht =>
    simp only [Regex.nullable, Regex.Lang, Bool.or_eq_true, ihr, iht]
  | star r _ =>
    simp only [Regex.nullable, Regex.Lang, true_iff]
    exact ⟨[], rfl, by simp⟩

theorem deriv_iff (r : Regex) (c : Char) (s : List Char) :
    (r.deriv c).Lang s ↔ r.Lang (c :: s) := by
  induction r generalizing s with
  | fail => simp [Regex.deriv, Regex.Lang]
  | eps => simp [Regex.deriv, Regex.Lang]
  | cls p =>
    cases hp : p c
    · simp only [Regex.deriv, hp, Regex.Lang]
      constructor
      · intro h; exact h.elim
      · rintro ⟨d, hd, hpd⟩
        simp only [List.cons.injEq] at hd
        rw [← hd.1, hp] at hpd
        exact Bool.noConfusion hpd
    · simp only [Regex.deriv, hp, if_true, Regex.Lang]
      constructor
      · intro h; exact ⟨c, by rw [h], hp⟩
      · rintro ⟨d, hd, _⟩
        simp only [List.cons.injEq] at hd
        exact hd.2
  | cat r t ihr iht =>
    have hsplit : (r.cat t).Lang (c :: s) ↔
        (r.Lang [] ∧ t.Lang (c :: s)) ∨ ∃ a b, s = a ++ b ∧ r.Lang (c :: a) ∧ t.Lang b := by
      simp only [Regex.Lang]
      constructor
      · rintro ⟨a, b, hab, ha, hb⟩
        cases a with
        | nil =>
          simp only [List.nil_append] at hab
          rw [← hab] at hb
          exact Or.inl ⟨ha, hb⟩
        | cons d a =>
          simp only [List.cons_append, List.cons.injEq] at hab
          rw [← hab.1] at ha
          exact Or.inr ⟨a, b, hab.2, ha, hb⟩
      · rintro (⟨ha, hb⟩ | ⟨a, b, hab, ha, hb⟩)
        · exact ⟨[], c :: s, rfl, ha, hb⟩
        · exact ⟨c :: a, b, by rw [hab]; rfl, ha, hb⟩
    have hcat : ((r.deriv c).cat t).Lang s ↔ ∃ a b, s = a ++ b ∧ r.Lang (c :: a) ∧ t.Lang b := by
      simp only [Regex.Lang]
      constructor
      · rintro ⟨a, b, hab, ha, hb⟩
        exact ⟨a, b, hab, (ihr a).mp ha, hb⟩
      · rintro ⟨a, b, hab, ha, hb⟩
        exact ⟨a, b, hab, (ihr a).mpr ha, hb⟩
    rw [hsplit]
    cases hn : r.nullable
    · have hno : ¬ r.Lang [] := fun h => by
        rw [(nullable_iff r).mpr h] at hn
        exact Bool.noConfusion hn
      simp only [Regex.deriv, hn, Bool.false_eq_true, if_false]
      rw [hcat]
      constructor
      · intro h; exact Or.inr h
      · rintro (⟨ha, _⟩ | h)
        · exact absurd ha hno
        · exact h
    · have hyes : r.Lang [] := (nullable_iff r).mp hn
      simp only [Regex.deriv, hn, if_true]
      show ((r.deriv c).cat t).Lang s ∨ (t.deriv c).Lang s ↔ _
      rw [hcat, iht s]
      constructor
      · rintro (h | h)
        · exact Or.inr h
        · exact Or.inl ⟨hyes, h⟩
      · rintro (⟨_, h⟩ | h)
        · exact Or.inr h
        · exact Or.inl h
  | alt r t ihr iht =>
    simp only [Regex.deriv, Regex.Lang, ihr s, iht s]
  | star r ih =>
    simp only [Regex.deriv]
    show (∃ a b, s = a ++ b ∧ (r.deriv c).Lang a ∧ (Regex.star r).Lang b) ↔ _
    simp only [Regex.Lang]
    constructor
    · rintro ⟨a, b, hab, ha, L, hL, hall⟩
      refine ⟨(c :: a) :: L, ?_, ?_⟩
      · simp [List.flatten, hab, hL]
      · intro x hx
        rcases List.mem_cons.mp hx with h | h
        · rw [h]
          exact ⟨List.cons_ne_nil _ _, (ih a).mp ha⟩
        · exact hall x h
    · rintro ⟨L, hL, hall⟩
      cases L with
      | nil => simp [List.flatten] at hL
      | cons x L =>
        obtain ⟨hx0, hx⟩ := hall x (List.mem_cons_self _ _)
        cases x with
        | nil => exact absurd rfl hx0
        | cons d a =>
          simp only [List.flatten, List.cons_append, List.cons.injEq] at hL
          rw [← hL.1] at hx
          exact ⟨a, L.flatten, hL.2, (ih a).mpr hx, L, rfl,
            fun y hy => hall y (List.mem_cons_of_mem _ hy)⟩

/-- The matcher decides membership in the strings of the expression. -/
theorem fullMatch_iff (r : Regex) (s : List Char) : r.fullMatch s = true ↔ r.Lang s := by
  induction s generalizing r with
  | nil => exact nullable_iff r
  | cons c s ih =>
    simp only [Regex.fullMatch]
    rw [ih (r.deriv c), deriv_iff]

/-- One or more characters of a class. -/
theorem plus_cls_iff (p : Char → Bool) (s : List Char) :
    (Regex.plus (.cls p)).Lang s ↔ s ≠ [] ∧ ∀ c ∈ s, p c = true := by
  simp only [Regex.plus, Regex.Lang]
  constructor
  · rintro ⟨a, b, hab, ⟨c, hc, hpc⟩, L, hL, hall⟩
    subst hc
    refine ⟨by rw [hab]; simp, ?_⟩
    intro d hd
    rw [hab] at hd
    rcases List.mem_append.mp hd with h | h
    · simp only [List.mem_singleton] at h
      rw [h]; exact hpc
    · rw [hL] at h
      obtain ⟨x, hx, hdx⟩ := List.mem_flatten.mp h
      obtain ⟨_, e, he, hpe⟩ := hall x hx
      rw [he] at hdx
      simp only [List.mem_singleton] at hdx
      rw [hdx]; exact hpe
  · rintro ⟨hne, hall⟩
    cases s with
    | nil => exact absurd rfl hne
    | cons c t =>
      refine ⟨[c], t, rfl, ⟨c, rfl, hall c (List.mem_cons_self _ _)⟩,
        t.map (fun d => [d]), ?_, ?_⟩
      · clear hne hall
        induction t with
        | nil => rfl
        | cons d t ih => simp [List.flatten, ← ih]
      · intro x hx
        obtain ⟨d, hd, hdx⟩ := List.mem_map.mp hx
        rw [← hdx]
        exact ⟨List.cons_ne_nil _ _, d, rfl, hall d (List.mem_cons_of_mem _ hd)⟩

/-! ## Claims about IsValidEmail -/

theorem notSpaceAt_iff (c : Char) : notSpaceAt c = true ↔ c ≠ '@' ∧ isSpace c = false := by
  simp only [notSpaceAt]
  cases isSpace c <;> simp

/-- The strings of the pattern of line 72. -/
theorem emailRegex_iff (s : List Char) :
    emailRegex.Lang s ↔
      ∃ A B C : List Char, s = A ++ '@' :: (B ++ '.' :: C) ∧ A ≠ [] ∧ B ≠ [] ∧ C ≠ [] ∧
        (∀ c ∈ A, notSpaceAt c = true) ∧ (∀ c ∈ B, notSpaceAt c = true) ∧
        (∀ c ∈ C, notSpaceAt c = true) := by
  unfold emailRegex
  constructor
  · intro h
    obtain ⟨A, r1, h1, hA, h⟩ := h
    obtain ⟨x, r2, h2, ⟨c1, hx, hc1⟩, h⟩ := h
    obtain ⟨B, r3, h3, hB, h⟩ := h
    obtain ⟨y, C, h4, ⟨c2, hy, hc2⟩, hC⟩ := h
    have hA2 := (plus_cls_iff _ A).mp hA
    have hB2 := (plus_cls_iff _ B).mp hB
    have hC2 := (plus_cls_iff _ C).mp hC
    have e1 : c1 = '@' := by simpa using hc1
    have e2 : c2 = '.' := by simpa using hc2
    refine ⟨A, B, C, ?_, hA2.1, hB2.1, hC2.1, hA2.2, hB2.2, hC2.2⟩
    rw [h1, h2, hx, h3, h4, hy, e1, e2]
    rfl
  · rintro ⟨A, B, C, hs, hA0, hB0, hC0, hA, hB, hC⟩
    refine ⟨A, '@' :: (B ++ '.' :: C), hs, (plus_cls_iff _ A).mpr ⟨hA0, hA⟩, ?_⟩
    refine ⟨['@'], B ++ '.' :: C, rfl, ⟨'@', rfl, by decide⟩, ?_⟩
    refine ⟨B, '.' :: C, rfl, (plus_cls_iff _ B).mpr ⟨hB0, hB⟩, ?_⟩
    exact ⟨['.'], C, rfl, ⟨'.', rfl, by decide⟩, (plus_cls_iff _ C).mpr ⟨hC0, hC⟩⟩

theorem count_at_zero (l : List Char) (h : ∀ c ∈ l, notSpaceAt c = true) :
    l.count '@' = 0 := by
  apply List.count_eq_zero_of_not_mem
  intro hm
  exact ((notSpaceAt_iff '@').mp (h '@' hm)).1 rfl

/-- C14, as the code has it: `IsValidEmail` is true exactly when the email has
the shape local part, `@`, domain, where the domain is a part, a `.` and a
part, the three parts being non-empty and free of `@` and of the characters of
`\s` (tab, newline, form feed, carriage return, space).  Such an email
contains exactly one `@`, which has a `.` after it, and none of the characters
of `\s`. -/
theorem isValidEmail_shape (email : String) :
    (IsValidEmail email = true ↔
      ∃ A B C : List Char, email.data = A ++ '@' :: (B ++ '.' :: C) ∧
        A ≠ [] ∧ B ≠ [] ∧ C ≠ [] ∧
        ∀ c ∈ A ++ B ++ C, c ≠ '@' ∧ isSpace c = false) ∧
    (IsValidEmail email = true →
      email.data.count '@' = 1 ∧ ∀ c ∈ email.data, isSpace c = false) := by
  have key : IsValidEmail email = true ↔
      ∃ A B C : List Char, email.data = A ++ '@' :: (B ++ '.' :: C) ∧
        A ≠ [] ∧ B ≠ [] ∧ C ≠ [] ∧
        ∀ c ∈ A ++ B ++ C, c ≠ '@' ∧ isSpace c = false := by
    constructor
    · intro h
      unfold IsValidEmail at h
      split at h
      · exact Bool.noConfusion h
      · obtain ⟨A, B, C, hs, hA0, hB0, hC0, hA, hB, hC⟩ :=
          (emailRegex_iff email.data).mp ((fullMatch_iff _ _).mp h)
        refine ⟨A, B, C, hs, hA0, hB0, hC0, ?_⟩
        intro c hc
        rcases List.mem_append.mp hc with h1 | h1
        · rcases List.mem_append.mp h1 with h2 | h2
          · exact (notSpaceAt_iff c).mp (hA c h2)
          · exact (notSpaceAt_iff c).mp (hB c h2)
        · exact (notSpaceAt_iff c).mp (hC c h1)
    · rintro ⟨A, B, C, hs, hA0, hB0, hC0, hall⟩
      have hA : ∀ c ∈ A, notSpaceAt c = true := fun c hc =>
        (notSpaceAt_iff c).mpr (hall c (by simp [hc]))
      have hB : ∀ c ∈ B, notSpaceAt c = true := fun c hc =>
        (notSpaceAt_iff c).mpr (hall c (by simp [hc]))
      have hC : ∀ c ∈ C, notSpaceAt c = true := fun c hc =>
        (notSpaceAt_iff c).mpr (hall c (by simp [hc]))
      have hcount : email.data.count '@' = 1 := by
        rw [hs, List.count_append, List.count_cons, List.count_append, List.count_cons,
          count_at_zero A hA, count_at_zero B hB, count_at_zero C hC]
        decide
      unfold IsValidEmail
      rw [if_neg (by rw [hcount]; exact fun h => h rfl)]
      exact (fullMatch_iff _ _).mpr
        ((emailRegex_iff email.data).mpr ⟨A, B, C, hs, hA0, hB0, hC0, hA, hB, hC⟩)
  refine ⟨key, ?_⟩
  intro h
  obtain ⟨A, B, C, hs, _, _, _, hall⟩ := key.mp h
  have hno : ∀ l : List Char, (∀ c ∈ l, c ≠ '@' ∧ isSpace c = false) → l.count '@' = 0 :=
    fun l hl => List.count_eq_zero_of_not_mem (fun hm => (hl '@' hm).1 rfl)
  refine ⟨?_, ?_⟩
  · rw [hs, List.count_append, List.count_cons, List.count_append, List.count_cons,
      hno A (fun c hc => hall c (by simp [hc])), hno B (fun c hc => hall c (by simp [hc])),
      hno C (fun c hc => hall c (by simp [hc]))]
    decide
  · intro c hc
    rw [hs] at hc
    simp only [List.mem_append, List.mem_cons] at hc
    rcases hc with h1 | h1 | h1 | h1 | h1
    · exact (hall c (by simp [h1])).2
    · rw [h1]; decide
    · exact (hall c (by simp [h1])).2
    · rw [h1]; decide
    · exact (hall c (by simp [h1])).2

/-- C14 on an ordinary address. -/
theorem isValidEmail_shape_witness :
    IsValidEmail "john@example.com" = true ∧ IsValidEmail "john@example" = false ∧
    "john@example.com".data.count '@' = 1 :=
  ⟨by decide, by decide, ((isValidEmail_shape "john@example.com").2 (by decide)).1⟩

/-- C14 as stated fails: an address with a tab in its local part has exactly
one `@`, a `.` after it with a character on either side, a non-empty local
part and no space, and is refused; an address with a vertical tab, which is
white space and is not in `\s`, is accepted. -/
theorem isValidEmail_refuses_tab :
    IsValidEmail "a\tb@c.d" = false ∧
    "a\tb@c.d".data.count '@' = 1 ∧ ' ' ∉ "a\tb@c.d".data ∧
    "a\tb@c.d".data = ['a', '\t', 'b'] ++ '@' :: (['c'] ++ '.' :: ['d']) ∧
    IsValidEmail "a\x0bb@c.d" = true := by
  decide

/-! ## Claims about itoa and String -/

theorem digitByte_eq (d : Nat) (h : d < 10) : digitByte (d : Int) = Nat.digitChar d := by
  interval_cases d <;> decide

theorem itoaLoop_done (pos : Nat) (i : Int) (buf : List Char) (h : ¬ i > 0) :
    itoaLoop pos i buf = some (pos, buf) := by
  cases pos <;> simp only [itoaLoop, if_neg h]

theorem itoaLoop_digits (k : Nat) : ∀ (n fuel pos : Nat) (buf : List Char),
    0 < n → n < 10 ^ k → n ≤ fuel → k ≤ pos →
    ∃ p, pos ≤ p + k ∧ itoaLoop pos (n : Int) buf = some (p, Nat.toDigitsCore 10 fuel n buf) := by
  induction k with
  | zero =>
    intro n fuel pos buf h0 hk _ _
    simp at hk
    omega
  | succ k ih =>
    intro n fuel pos buf h0 hk hf hp
    obtain ⟨p, rfl⟩ : ∃ p, pos = p + 1 := ⟨pos - 1, by omega⟩
    obtain ⟨f, rfl⟩ : ∃ f, fuel = f + 1 := ⟨fuel - 1, by omega⟩
    have hpos : (n : Int) > 0 := by exact_mod_cast h0
    have hdiv : (n : Int).tdiv 10 = ((n / 10 : Nat) : Int) := by simp [Int.tdiv]
    have hmod : (n : Int).tmod 10 = ((n % 10 : Nat) : Int) := rfl
    have hd : digitByte ((n % 10 : Nat) : Int) = Nat.digitChar (n % 10) :=
      digitByte_eq _ (Nat.mod_lt _ (by decide))
    simp only [itoaLoop, if_pos hpos, hdiv, hmod, hd, Nat.toDigitsCore]
    by_cases hz : n / 10 = 0
    · refine ⟨p, by omega, ?_⟩
      rw [if_pos hz, hz]
      exact itoaLoop_done _ _ _ (by simp)
    · rw [if_neg hz]
      have h1 : n / 10 < 10 ^ k := by
        rw [Nat.div_lt_iff_lt_mul (by decide)]
        rw [pow_succ] at hk
        exact hk
      obtain ⟨q, hq, he⟩ := ih (n / 10) f p (Nat.digitChar (n % 10) :: buf)
        (Nat.pos_of_ne_zero hz) h1 (by omega) (by omega)
      exact ⟨q, by omega, he⟩

/-- Away from the smallest int, the digits of line 100 are the decimal digits. -/
theorem itoa_correct (i : Int) (hlo : minInt < i) (hhi : i ≤ maxInt) :
    itoa i = some (Int.repr i) := by
  unfold minInt at hlo
  unfold maxInt at hhi
  by_cases h0 : i = 0
  · subst h0; rfl
  · cases i with
    | ofNat n =>
      have hn : 0 < n := Nat.pos_of_ne_zero (fun h => h0 (by rw [h]; rfl))
      have hlt : n < 10 ^ 19 := by
        have : (n : Int) ≤ 9223372036854775807 := hhi
        omega
      obtain ⟨p, _, he⟩ := itoaLoop_digits 19 n (n + 1) 20 [] hn hlt (by omega) (by decide)
      have hneg : ¬ (Int.ofNat n < 0) := by simp
      simp only [itoa, if_neg h0, decide_eq_false hneg, Bool.false_eq_true, if_false]
      rw [show (Int.ofNat n) = (n : Int) from rfl, he]
      rfl
    | negSucc m =>
      have hns : Int.negSucc m = -((m : Int) + 1) := Int.negSucc_eq m
      have hm : m + 1 < 10 ^ 19 := by
        have : -9223372036854775808 < Int.negSucc m := hlo
        omega
      have hw : wrapInt (-(Int.negSucc m)) = ((m + 1 : Nat) : Int) := by
        unfold wrapInt
        have : -9223372036854775808 < Int.negSucc m := hlo
        omega
      obtain ⟨p, hp, he⟩ := itoaLoop_digits 19 (m + 1) (m + 1 + 1) 20 [] (by omega) hm
        (by omega) (by decide)
      obtain ⟨q, rfl⟩ : ∃ q, p = q + 1 := ⟨p - 1, by omega⟩
      have hneg : Int.negSucc m < 0 := Int.negSucc_lt_zero m
      simp only [itoa, if_neg h0, decide_eq_true hneg, if_true, hw, he]
      rfl

/-- C13, at the smallest int: there `i = -i` of line 97 wraps to the same
value, the loop of line 99 writes no digit, and `itoa` returns the sign alone,
which is not the decimal rendering `-9223372036854775808`; `String` then shows
an age of `-`.  For every other int `itoa` returns the decimal rendering, and
`String` the text built from it. -/
theorem itoa_smallest_int :
    itoa minInt = some "-" ∧
    Int.repr minInt = "-9223372036854775808" ∧
    itoa minInt ≠ some (Int.repr minInt) ∧
    wrapInt (-minInt) = minInt ∧
    (User.mk "a" minInt "b").String = some "Name: a, Age: -, Email: b" ∧
    (∀ i : Int, minInt < i → i ≤ maxInt → itoa i = some (Int.repr i)) ∧
    (∀ u : User, minInt < u.Age → u.Age ≤ maxInt →
      u.String =
        some ("Name: " ++ u.Name ++ ", Age: " ++ Int.repr u.Age ++ ", Email: " ++ u.Email)) := by
  refine ⟨by decide, by decide, by decide, by decide, by decide, itoa_correct, ?_⟩
  intro u hlo hhi
  simp only [User.String, itoa_correct u.Age hlo hhi, Option.map_some']

end Lab01
